import Mathlib

/-!
Shallow embedding of the single-instrument limit order book from
`src/lib.rs` (crate `execution`), together with proofs of the
specification's testable properties.

Modelling conventions:
* `Price = u64` and `OrderQty = u64` become `Nat`; the two places the
  source performs `u64` arithmetic that can overflow — the quantity sum
  of `get_total_qty` and the `avg_price` accumulator — are modelled with
  explicit `% 2^64` (release-build wrapping semantics).
* `BTreeMap<Price, usize>` becomes an association list kept sorted by
  strictly ascending key, with ordered insertion (`insertAssoc`); its
  iteration order is the list order, matching `BTreeMap::iter`.
* `Vec<VecDeque<Order>>` becomes `List (List Order)`; `push_back` is
  append at the tail, `retain` is `filter`.
* `HashMap<OrderId, (Side, usize)>` becomes an association list with
  overwriting insertion (`insertLoc`); lookup order is irrelevant since
  keys are unique by construction.
* `rand::thread_rng().gen()` (the order-id source) is modelled by
  passing the fresh id explicitly to `add`, as the spec directs
  (an injected identifier-source capability).
* Rust panics (indexing a `BTreeMap` with a missing key, out-of-bounds
  vector indexing) are modelled as `Except.error` results.
-/

namespace Execution

/-- Side of the order book, `Side` in src/src/lib.rs: `Bid` buys, `Ask` sells. -/
inductive Side where
  | Bid
  | Ask
deriving DecidableEq, Repr

/-- A resting order, `Order` in src/src/lib.rs: unique identifier and quantity. -/
structure Order where
  id : Nat
  qty : Nat
deriving DecidableEq, Repr

/-- Lookup in an association list modelling `BTreeMap<Price, usize>` access. -/
def lookupAssoc (k : Nat) : List (Nat × Nat) → Option Nat
  | [] => none
  | (k', v) :: rest => if k = k' then some v else lookupAssoc k rest

/-- Ordered insertion into the sorted association list modelling
`BTreeMap::insert` (replaces the value if the key is present, otherwise
inserts at the sorted position). -/
def insertAssoc (k v : Nat) : List (Nat × Nat) → List (Nat × Nat)
  | [] => [(k, v)]
  | (k', v') :: rest =>
    if k < k' then (k, v) :: (k', v') :: rest
    else if k = k' then (k, v) :: rest
    else (k', v') :: insertAssoc k v rest

/-- In-place update of the element at an index, modelling `vec[idx] = ...`
style mutation of one price level; out-of-range indices are unreachable in
reachable book states. -/
def modifyIdx {α : Type} (f : α → α) : Nat → List α → List α
  | _, [] => []
  | 0, a :: rest => f a :: rest
  | n + 1, a :: rest => a :: modifyIdx f n rest

/-- One side of the book, `HalfBook` in src/src/lib.rs: the sorted
price-to-slot map and the arena of price-level FIFO queues. -/
structure HalfBook where
  price_map : List (Nat × Nat)
  price_levels : List (List Order)
deriving DecidableEq, Repr

/-- `HalfBook::new`. -/
def HalfBook.new : HalfBook := ⟨[], []⟩

/-- Failure of a total-quantity query: the Rust code panics when
`price_map[&price]` misses; the spec names this failure `PriceNotFound`. -/
inductive QtyError where
  | PriceNotFound
deriving DecidableEq, Repr

/-- The modulus of `u64` arithmetic. -/
def u64Mod : Nat := 18446744073709551616

/-- The `u64` `Iterator::sum` over the quantities of a level's orders:
each addition wraps modulo `2^64` (release-build semantics; a debug build
would panic on the overflowing addition instead). -/
def u64SumQty (l : List Order) : Nat :=
  l.foldl (fun acc o => (acc + o.qty) % u64Mod) 0

/-- `HalfBook::get_total_qty`: the wrapping `u64` sum of the order
quantities in the level slot mapped by `price`. The missing-key panic of
`self.price_map[&price]` is modelled as `PriceNotFound`; the out-of-bounds
slot case is mapped to the same error and is unreachable in reachable
book states. -/
def HalfBook.get_total_qty (hb : HalfBook) (price : Nat) : Except QtyError Nat :=
  match lookupAssoc price hb.price_map with
  | none => .error .PriceNotFound
  | some idx =>
    match hb.price_levels.get? idx with
    | none => .error .PriceNotFound
    | some lvl => .ok (u64SumQty lvl)

/-- `CancelResult` in src/src/lib.rs. -/
inductive CancelResult where
  | NotFound
  | Canceled
deriving DecidableEq, Repr

/-- The order book, `OrderBook` in src/src/lib.rs: both half books, the
cached best-price scalars and the order-location index. -/
structure OrderBook where
  bids : HalfBook
  asks : HalfBook
  best_bid : Nat
  best_ask : Nat
  order_loc : List (Nat × Side × Nat)
deriving DecidableEq, Repr

/-- `OrderBook::new`: empty sides, empty location index, both cached
best prices initialised to `0`. -/
def OrderBook.new : OrderBook :=
  { best_bid := 0, best_ask := 0, bids := HalfBook.new, asks := HalfBook.new, order_loc := [] }

/-- Lookup in the association list modelling `HashMap<OrderId, (Side, usize)>`. -/
def lookupLoc (id : Nat) : List (Nat × Side × Nat) → Option (Side × Nat)
  | [] => none
  | (k, v) :: rest => if k = id then some v else lookupLoc id rest

/-- `HashMap::remove` on the location index (drops every binding of the key;
there is at most one). -/
def removeLoc (id : Nat) (l : List (Nat × Side × Nat)) : List (Nat × Side × Nat) :=
  l.filter (fun e => decide (e.1 ≠ id))

/-- `HashMap::insert` on the location index: overwrite any old binding. -/
def insertLoc (id : Nat) (v : Side × Nat) (l : List (Nat × Side × Nat)) :
    List (Nat × Side × Nat) :=
  (id, v) :: removeLoc id l

/-- `OrderBook::get_total_qty`: dispatch on the side. -/
def OrderBook.get_total_qty (b : OrderBook) (side : Side) (price : Nat) : Except QtyError Nat :=
  match side with
  | .Bid => b.bids.get_total_qty price
  | .Ask => b.asks.get_total_qty price

/-- The half-book part of `OrderBook::add`: push onto the existing level's
queue when the price is mapped, otherwise allocate a fresh slot at the end
of `price_levels` and map the price to it. Returns the slot index recorded
in the location index. -/
def HalfBook.insertOrder (hb : HalfBook) (price : Nat) (o : Order) : HalfBook × Nat :=
  match lookupAssoc price hb.price_map with
  | some idx =>
    ({ hb with price_levels := modifyIdx (fun l => l ++ [o]) idx hb.price_levels }, idx)
  | none =>
    ({ price_map := insertAssoc price hb.price_levels.length hb.price_map,
       price_levels := hb.price_levels ++ [[o]] }, hb.price_levels.length)

/-- `OrderBook::add` with the freshly generated id passed explicitly
(modelling the `rand::thread_rng().gen()` identifier source). -/
def OrderBook.add (b : OrderBook) (side : Side) (price qty id : Nat) : OrderBook :=
  match side with
  | .Bid =>
    let r := b.bids.insertOrder price ⟨id, qty⟩
    { b with bids := r.1, order_loc := insertLoc id (Side.Bid, r.2) b.order_loc }
  | .Ask =>
    let r := b.asks.insertOrder price ⟨id, qty⟩
    { b with asks := r.1, order_loc := insertLoc id (Side.Ask, r.2) b.order_loc }

/-- `VecDeque::retain(|o| o.id != id)` on one price level. -/
def removeOrderById (id : Nat) (l : List Order) : List Order :=
  l.filter (fun o => decide (o.id ≠ id))

/-- `OrderBook::cancel`: remove the id from the location index; when it was
present, drop the order from the recorded level of the recorded side. -/
def OrderBook.cancel (b : OrderBook) (id : Nat) : CancelResult × OrderBook :=
  match lookupLoc id b.order_loc with
  | none => (.NotFound, b)
  | some (side, idx) =>
    match side with
    | .Bid =>
      (.Canceled,
       { b with order_loc := removeLoc id b.order_loc,
                bids := { b.bids with
                          price_levels := modifyIdx (removeOrderById id) idx b.bids.price_levels } })
    | .Ask =>
      (.Canceled,
       { b with order_loc := removeLoc id b.order_loc,
                asks := { b.asks with
                          price_levels := modifyIdx (removeOrderById id) idx b.asks.price_levels } })

/-- The queue stored at slot `i`, with out-of-range slots reading as empty
(in reachable states every mapped slot is in range). -/
def levelAt (hb : HalfBook) (i : Nat) : List Order := hb.price_levels.getD i []

/-- The non-emptiness test `!price_levels[*idx].is_empty()` used by the
best-price scan. -/
def levelNonEmpty (hb : HalfBook) (pi : Nat × Nat) : Bool := !(levelAt hb pi.2).isEmpty

/-- The ask-side scan of `OrderBook::update_best_bid_ask`: first price (in
ascending map order) whose level is non-empty. -/
def HalfBook.scanAsc (hb : HalfBook) : Option Nat :=
  (hb.price_map.find? (levelNonEmpty hb)).map Prod.fst

/-- The bid-side scan of `OrderBook::update_best_bid_ask`: first price in
descending map order (`iter().rev()`) whose level is non-empty. -/
def HalfBook.scanDesc (hb : HalfBook) : Option Nat :=
  (hb.price_map.reverse.find? (levelNonEmpty hb)).map Prod.fst

/-- `OrderBook::update_best_bid_ask`: each cache is overwritten by the
first non-empty price found on its side and left unchanged when the scan
finds none; returns `(best_bid, best_ask)` together with the new state. -/
def OrderBook.update_best_bid_ask (b : OrderBook) : (Nat × Nat) × OrderBook :=
  let ba := (HalfBook.scanAsc b.asks).getD b.best_ask
  let bb := (HalfBook.scanDesc b.bids).getD b.best_bid
  ((bb, ba), { b with best_bid := bb, best_ask := ba })

/-- A mutation of the public `OrderBook` interface: `add` (with the id the
identifier source produced) or `cancel`. -/
inductive Op where
  | add (side : Side) (price qty id : Nat)
  | cancel (id : Nat)
deriving DecidableEq, Repr

/-- Apply one mutation to the book. -/
def applyOp (b : OrderBook) : Op → OrderBook
  | .add s p q i => b.add s p q i
  | .cancel i => (b.cancel i).2

/-- Run a sequence of mutations from a given state. -/
def runOpsFrom (b : OrderBook) (ops : List Op) : OrderBook := ops.foldl applyOp b

/-- The book state reached from `OrderBook::new` by a sequence of mutations. -/
def runOps (ops : List Op) : OrderBook := runOpsFrom OrderBook.new ops

/-- The id an operation hands to the book's location index, if any. -/
def opAddedId : Op → Option Nat
  | .add _ _ _ i => some i
  | .cancel _ => none

/-- The prices at which `add` was called on a given side in a sequence. -/
def addedPrices (ops : List Op) (s : Side) : List Nat :=
  ops.filterMap (fun op =>
    match op with
    | .add s' p _ _ => if s' = s then some p else none
    | .cancel _ => none)

/-- Prices of this half book whose level currently holds at least one
order, in ascending price order. -/
def HalfBook.nonEmptyPrices (hb : HalfBook) : List Nat :=
  (hb.price_map.filter (levelNonEmpty hb)).map Prod.fst

/-- Every order resting anywhere in the book (both sides, all levels). -/
def allOrders (b : OrderBook) : List Order :=
  (b.bids.price_levels ++ b.asks.price_levels).flatten

/-- `OrderStatus` in src/src/lib.rs (the source's spelling of the
construction-only placeholder is kept). -/
inductive OrderStatus where
  | Unititialized
  | Created
  | Filled
  | PartiallyFilled
deriving DecidableEq, Repr

/-- `FillResult` in src/src/lib.rs. -/
structure FillResult where
  remaining : Nat
  status : OrderStatus
  orders : List (Nat × Nat)
deriving DecidableEq, Repr

/-- `FillResult::new`: empty fills, `remaining = u64::MAX`, placeholder status. -/
def FillResult.new : FillResult :=
  { orders := [], remaining := u64Mod - 1, status := OrderStatus.Unititialized }

/-- The integer accumulator of `FillResult::avg_price`: the fold computing
`(total, quantity)` over `orders` in wrapping `u64` arithmetic. The Rust
function then returns `total as f64 / quantity as f64`, a floating-point
division with no guard on `quantity == 0`. -/
def FillResult.avg_price_parts (fr : FillResult) : Nat × Nat :=
  fr.orders.foldl
    (fun acc pq => ((acc.1 + pq.1 * pq.2 % u64Mod) % u64Mod, (acc.2 + pq.2) % u64Mod))
    (0, 0)

/-- The op sequence of the spec's first scenario (fresh ids 1 to 6). -/
def scenarioOps : List Op :=
  [Op.add Side.Bid 100 10 1, Op.add Side.Ask 101 10 2, Op.add Side.Ask 101 10 3,
   Op.add Side.Ask 102 10 4, Op.add Side.Bid 99 10 5, Op.add Side.Bid 98 10 6]

/-- Two adds of quantity `2^63` at one bid price: valid `u64` inputs whose
quantities sum past `u64::MAX`, so the total-quantity query wraps to 0. -/
def wrapOps : List Op :=
  [Op.add Side.Bid 100 9223372036854775808 1, Op.add Side.Bid 100 9223372036854775808 2]

/-- An operation is quantity-wellformed when any order it adds has a
positive quantity (the condition under which the no-zero-quantity
invariant of the spec holds). -/
def opQtyOk : Op → Bool
  | .add _ _ q _ => decide (q ≠ 0)
  | .cancel _ => true

/-- The price map of a half book is sorted by strictly ascending price
(the `BTreeMap` representation invariant). -/
def pmSorted (pm : List (Nat × Nat)) : Prop :=
  pm.Pairwise (fun a b => a.1 < b.1)

/-- Both price maps of the book are sorted. -/
def bookSorted (b : OrderBook) : Prop :=
  pmSorted b.bids.price_map ∧ pmSorted b.asks.price_map

/-- Modelled from the spec: the error results of `MatchingEngine.submit`
(§4.3 failure policy); the matching engine is absent from src (the `fill`
method is an unimplemented TODO). -/
inductive SubmitError where
  | InvalidQuantity
  | InvalidPrice
deriving DecidableEq, Repr

/-- Modelled from the spec: steps 3(a)-(e) of the matching walk inside one
crossing price level (absent from src). Pops orders FIFO; each trade is
`min(remaining, orderQuantity)` at the resting `price`; a fully consumed
order's id is collected for removal from the location index; a partially
consumed order is pushed back at the front with its quantity reduced and
the scan of this level stops. Returns the new remaining quantity, the
fills appended at this level, the level's new queue and the consumed ids. -/
def fillQueue : Nat → Nat → List Order → Nat × List (Nat × Nat) × List Order × List Nat
  | _, remaining, [] => (remaining, [], [], [])
  | price, remaining, o :: rest =>
    if remaining = 0 then (remaining, [], o :: rest, [])
    else if o.qty ≤ remaining then
      match fillQueue price (remaining - o.qty) rest with
      | (r', fs, q', ids) => (r', (price, o.qty) :: fs, q', o.id :: ids)
    else (0, [(price, remaining)], ⟨o.id, o.qty - remaining⟩ :: rest, [])

/-- Modelled from the spec: step 3 of the matching algorithm (absent from
src): walk the opposite side's non-empty levels in best-first order while
quantity remains and the level price crosses; a level left non-empty stops
the walk. Returns the remaining quantity, all fills in execution order,
the new queue of every touched level, and all consumed order ids. -/
def fillLevels (crosses : Nat → Bool) :
    Nat → List (Nat × List Order) → Nat × List (Nat × Nat) × List (Nat × List Order) × List Nat
  | remaining, [] => (remaining, [], [], [])
  | remaining, (p, q) :: rest =>
    if remaining = 0 then (remaining, [], [], [])
    else if crosses p then
      match fillQueue p remaining q with
      | (r', fs, q', ids) =>
        if q'.isEmpty then
          match fillLevels crosses r' rest with
          | (r'', fs', ups, ids') => (r'', fs ++ fs', (p, q') :: ups, ids ++ ids')
        else (r', fs, [(p, q')], ids)
    else (remaining, [], [], [])

/-- Modelled from the spec: the non-empty levels of a half book in
ascending price order (the ask-side best-first walk order). -/
def nonEmptyLevelsAsc (hb : HalfBook) : List (Nat × List Order) :=
  hb.price_map.filterMap (fun pi =>
    if (levelAt hb pi.2).isEmpty then none else some (pi.1, levelAt hb pi.2))

/-- Modelled from the spec: the non-empty levels of a half book in
descending price order (the bid-side best-first walk order). -/
def nonEmptyLevelsDesc (hb : HalfBook) : List (Nat × List Order) :=
  hb.price_map.reverse.filterMap (fun pi =>
    if (levelAt hb pi.2).isEmpty then none else some (pi.1, levelAt hb pi.2))

/-- Modelled from the spec: overwrite the queue of the level mapped by a
price (write-back of a level mutated during the matching walk). -/
def HalfBook.setLevel (hb : HalfBook) (p : Nat) (q : List Order) : HalfBook :=
  match lookupAssoc p hb.price_map with
  | some idx => { hb with price_levels := modifyIdx (fun _ => q) idx hb.price_levels }
  | none => hb

/-- Modelled from the spec: write back every level touched by the walk. -/
def HalfBook.applyUpdates (hb : HalfBook) (ups : List (Nat × List Order)) : HalfBook :=
  ups.foldl (fun h pu => h.setLevel pu.1 pu.2) hb

/-- Modelled from the spec: remove every fully consumed order's id from the
location index (step 3(d)). -/
def removeLocs (ids : List Nat) (l : List (Nat × Side × Nat)) : List (Nat × Side × Nat) :=
  ids.foldl (fun acc i => removeLoc i acc) l

/-- Modelled from the spec: steps 4-6 of `submit` after the walk: write the
touched levels back, drop consumed ids from the location index, insert the
remainder as a resting order and refresh the best prices when any quantity
remains, and classify the status (`Filled` / `PartiallyFilled` / `Created`). -/
def submitFinish (b : OrderBook) (side : Side) (price newId r : Nat)
    (fs : List (Nat × Nat)) (ups : List (Nat × List Order)) (ids : List Nat) :
    Except SubmitError (FillResult × OrderBook) :=
  let b1 := match side with
    | Side.Bid => { b with asks := b.asks.applyUpdates ups }
    | Side.Ask => { b with bids := b.bids.applyUpdates ups }
  let b2 := { b1 with order_loc := removeLocs ids b1.order_loc }
  let b3 := if r = 0 then b2 else ((b2.add side price r newId).update_best_bid_ask).2
  .ok ({ remaining := r,
         status := if fs = [] then OrderStatus.Created
                   else if r = 0 then OrderStatus.Filled
                   else OrderStatus.PartiallyFilled,
         orders := fs }, b3)

/-- Modelled from the spec: `MatchingEngine.submit(side, price, quantity)`
(§4.3), which src leaves as an unimplemented TODO. Zero quantity and the
sentinel price are rejected before any mutation; otherwise the opposite
side is walked best-first over crossing levels and the result is assembled
by `submitFinish`. The fresh id for a resting remainder is passed
explicitly, like in `add`. -/
def OrderBook.submit (b : OrderBook) (side : Side) (price qty newId : Nat) :
    Except SubmitError (FillResult × OrderBook) :=
  if qty = 0 then .error .InvalidQuantity
  else if price = 0 then .error .InvalidPrice
  else
    match side with
    | Side.Bid =>
      match fillLevels (fun p => decide (p ≤ price)) qty (nonEmptyLevelsAsc b.asks) with
      | (r, fs, ups, ids) => submitFinish b Side.Bid price newId r fs ups ids
    | Side.Ask =>
      match fillLevels (fun p => decide (price ≤ p)) qty (nonEmptyLevelsDesc b.bids) with
      | (r, fs, ups, ids) => submitFinish b Side.Ask price newId r fs ups ids

/-- The submit call of the spec's second scenario: one resting ask of
quantity 5 at price 100, then an aggressive bid for 8 at 100. -/
def wSubmit : Except SubmitError (FillResult × OrderBook) :=
  (runOps [Op.add Side.Ask 100 5 1]).submit Side.Bid 100 8 2

/-- The fill result of `wSubmit` (fallback never taken). -/
def wFill : FillResult :=
  match wSubmit with
  | .ok (fr, _) => fr
  | .error _ => FillResult.new

/-- The book state after `wSubmit` (fallback never taken). -/
def wBookAfter : OrderBook :=
  match wSubmit with
  | .ok (_, b2) => b2
  | .error _ => OrderBook.new

/-- A live order of the reference model used to state what the book's
levels hold: the side, price, id and quantity it was added with. -/
structure RefEntry where
  side : Side
  price : Nat
  id : Nat
  qty : Nat
deriving DecidableEq, Repr

/-- Reference semantics of one operation on the multiset of live orders:
`add` appends a live order, `cancel` removes the entries with that id. -/
def refApply (l : List RefEntry) : Op → List RefEntry
  | .add s p q i => l ++ [⟨s, p, i, q⟩]
  | .cancel i => l.filter (fun e => decide (e.id ≠ i))

/-- Run the reference semantics from a given list of live orders. -/
def refRunFrom (l : List RefEntry) (ops : List Op) : List RefEntry :=
  ops.foldl refApply l

/-- The live orders after a sequence of operations from the empty book. -/
def refRun (ops : List Op) : List RefEntry := refRunFrom [] ops

/-- The live orders on one side. -/
def entriesOf (ref : List RefEntry) (s : Side) : List RefEntry :=
  ref.filter (fun e => decide (e.side = s))

/-- The order a live entry rests as in the book. -/
def toOrder (e : RefEntry) : Order := ⟨e.id, e.qty⟩

/-- The sum of the quantities of the currently live orders at one side and
price according to the reference semantics. -/
def refQty (ops : List Op) (s : Side) (p : Nat) : Nat :=
  (((entriesOf (refRun ops) s).filter (fun e => decide (e.price = p))).map RefEntry.qty).sum

/-- The half book of one side. -/
def sideStore (b : OrderBook) : Side → HalfBook
  | .Bid => b.bids
  | .Ask => b.asks

/-- The ids handed to `add` by a sequence of operations. -/
def addIds (ops : List Op) : List Nat := ops.filterMap opAddedId

/-- Whether an operation adds an order at the given side and price. -/
def opAddsPrice : Op → Side → Nat → Bool
  | .add s' p' _ _, s, p => decide (s' = s ∧ p' = p)
  | .cancel _, _, _ => false

/-- Representation invariant of one half book against the live orders of
its side: mapped slots are in range, distinct prices map to distinct
slots, each mapped slot holds exactly the live orders of its price in
insertion order, and every live order's price is mapped. -/
structure HBInv (hb : HalfBook) (es : List RefEntry) : Prop where
  bounds : ∀ pi ∈ hb.price_map, pi.2 < hb.price_levels.length
  inj : ∀ p₁ i₁ p₂ i₂, lookupAssoc p₁ hb.price_map = some i₁ →
    lookupAssoc p₂ hb.price_map = some i₂ → p₁ ≠ p₂ → i₁ ≠ i₂
  content : ∀ p i, lookupAssoc p hb.price_map = some i →
    levelAt hb i = (es.filter (fun e => decide (e.price = p))).map toOrder
  dom : ∀ e ∈ es, lookupAssoc e.price hb.price_map ≠ none

/-- Representation invariant of the whole book against the reference
list of live orders: both half books represent their sides, the location
index holds exactly the live ids and points each at the slot of its
order's price on its order's side, and live ids are pairwise distinct. -/
structure BookInv (b : OrderBook) (ref : List RefEntry) : Prop where
  bidsInv : HBInv b.bids (entriesOf ref Side.Bid)
  asksInv : HBInv b.asks (entriesOf ref Side.Ask)
  locNone : ∀ id, lookupLoc id b.order_loc = none ↔ ∀ e ∈ ref, e.id ≠ id
  locSome : ∀ id s i, lookupLoc id b.order_loc = some (s, i) →
    ∃ e ∈ ref, e.id = id ∧ e.side = s ∧
      lookupAssoc e.price (sideStore b s).price_map = some i
  idsNodup : (ref.map RefEntry.id).Nodup

/-- Claim C9: `add` never refreshes the best-price caches: both cached
scalars after any `add` equal their values before the call. -/
theorem add_preserves_best_caches (b : OrderBook) (s : Side) (price qty id : Nat) :
    (b.add s price qty id).best_bid = b.best_bid ∧
      (b.add s price qty id).best_ask = b.best_ask := by
  cases s <;> exact ⟨rfl, rfl⟩

/-- Claim C10: `update_best_bid_ask` mutates only the two cached best-price
scalars: both half books (price maps and all level queues) and the
order-location index are unchanged by the call. -/
theorem update_mutates_only_caches (b : OrderBook) :
    b.update_best_bid_ask.2.bids = b.bids ∧
      b.update_best_bid_ask.2.asks = b.asks ∧
      b.update_best_bid_ask.2.order_loc = b.order_loc :=
  ⟨rfl, rfl, rfl⟩

/-- Claim C3: on a `FillResult` with an empty fills sequence (such as
`FillResult::new`), the `avg_price` fold yields quantity `0`, so the
function performs the floating-point division `0.0 / 0.0` yielding `NaN`
instead of signalling an `UndefinedAverage` error. -/
theorem avg_price_empty_fills_divides_by_zero :
    FillResult.new.orders = [] ∧ FillResult.new.avg_price_parts.2 = 0 :=
  ⟨rfl, rfl⟩

/-- Claim C4 counterexample: on the empty book the code returns the pair
`(0, 0)` from `update_best_bid_ask`; the absent-side marker is exactly the
price zero, contradicting the claim that it is never price zero. -/
theorem update_empty_book_returns_price_zero :
    OrderBook.new.update_best_bid_ask.1 = (0, 0) := rfl

/-- Claim C5: the spec's scenario: after the six adds, the refresh returns
`(100, 101)` and the total ask quantity at price 101 is 20. -/
theorem scenario_best_and_total_qty :
    (runOps scenarioOps).update_best_bid_ask.1 = (100, 101) ∧
      (runOps scenarioOps).get_total_qty Side.Ask 101 = Except.ok 20 :=
  ⟨rfl, rfl⟩

theorem lookupLoc_eq_none_iff {id : Nat} {l : List (Nat × Side × Nat)} :
    lookupLoc id l = none ↔ ∀ e ∈ l, e.1 ≠ id := by
  induction l with
  | nil => simp [lookupLoc]
  | cons e t ih =>
    obtain ⟨k, v⟩ := e
    simp only [lookupLoc]
    by_cases hk : k = id
    · rw [if_pos hk]
      constructor
      · intro h; simp at h
      · intro h; exact absurd hk (h (k, v) (List.mem_cons_self _ _))
    · rw [if_neg hk, ih]
      constructor
      · intro h e he
        rcases List.mem_cons.mp he with h1 | h1
        · subst h1; exact hk
        · exact h e h1
      · intro h e he; exact h e (List.mem_cons_of_mem _ he)

theorem lookupLoc_filter_none {id : Nat} {p : Nat × Side × Nat → Bool}
    {l : List (Nat × Side × Nat)} (h : lookupLoc id l = none) :
    lookupLoc id (l.filter p) = none := by
  rw [lookupLoc_eq_none_iff] at h ⊢
  intro e he
  exact h e (List.mem_of_mem_filter he)

theorem lookupLoc_removeLoc_self (id : Nat) (l : List (Nat × Side × Nat)) :
    lookupLoc id (removeLoc id l) = none := by
  rw [lookupLoc_eq_none_iff]
  intro e he
  have he' : e ∈ l.filter (fun e => decide (e.1 ≠ id)) := he
  simpa using (List.mem_filter.mp he').2

theorem lookupLoc_insertLoc_none {id i : Nat} {v : Side × Nat}
    {l : List (Nat × Side × Nat)} (hne : i ≠ id) (h : lookupLoc id l = none) :
    lookupLoc id (insertLoc i v l) = none := by
  simp only [insertLoc, lookupLoc]
  rw [if_neg hne]
  exact lookupLoc_filter_none h

theorem add_order_loc (b : OrderBook) (s : Side) (p q i : Nat) :
    ∃ v, (b.add s p q i).order_loc = insertLoc i v b.order_loc := by
  cases s with
  | Bid => exact ⟨(Side.Bid, (b.bids.insertOrder p ⟨i, q⟩).2), rfl⟩
  | Ask => exact ⟨(Side.Ask, (b.asks.insertOrder p ⟨i, q⟩).2), rfl⟩

theorem cancel_order_loc_cases (b : OrderBook) (i : Nat) :
    (b.cancel i).2.order_loc = b.order_loc ∨
      (b.cancel i).2.order_loc = removeLoc i b.order_loc := by
  cases hl : lookupLoc i b.order_loc with
  | none => left; simp [OrderBook.cancel, hl]
  | some v =>
    obtain ⟨s, idx⟩ := v
    right; cases s <;> simp [OrderBook.cancel, hl]

theorem cancel_fst_iff (b : OrderBook) (id : Nat) :
    (b.cancel id).1 = CancelResult.Canceled ↔ (lookupLoc id b.order_loc).isSome = true := by
  cases hl : lookupLoc id b.order_loc with
  | none => simp [OrderBook.cancel, hl]
  | some v =>
    obtain ⟨s, i⟩ := v
    cases s <;> simp [OrderBook.cancel, hl]

theorem cancel_loc_of_canceled (b : OrderBook) (id : Nat)
    (h : (b.cancel id).1 = CancelResult.Canceled) :
    (b.cancel id).2.order_loc = removeLoc id b.order_loc := by
  cases hl : lookupLoc id b.order_loc with
  | none =>
    exfalso
    rw [cancel_fst_iff, hl] at h
    simp at h
  | some v =>
    obtain ⟨s, i⟩ := v
    cases s <;> simp [OrderBook.cancel, hl]

theorem cancel_fst_of_none {b : OrderBook} {id : Nat}
    (h : lookupLoc id b.order_loc = none) :
    (b.cancel id).1 = CancelResult.NotFound := by
  simp [OrderBook.cancel, h]

theorem lookupLoc_applyOp_none {b : OrderBook} {op : Op} {id : Nat}
    (h : lookupLoc id b.order_loc = none) (hop : opAddedId op ≠ some id) :
    lookupLoc id (applyOp b op).order_loc = none := by
  cases op with
  | add s p q i =>
    have hi : i ≠ id := by simpa [opAddedId] using hop
    obtain ⟨v, hv⟩ := add_order_loc b s p q i
    show lookupLoc id (b.add s p q i).order_loc = none
    rw [hv]
    exact lookupLoc_insertLoc_none hi h
  | cancel i =>
    show lookupLoc id (b.cancel i).2.order_loc = none
    rcases cancel_order_loc_cases b i with hc | hc
    · rw [hc]; exact h
    · rw [hc]; exact lookupLoc_filter_none h

theorem lookupLoc_runOpsFrom_none :
    ∀ (ops : List Op) (b : OrderBook) (id : Nat),
      lookupLoc id b.order_loc = none → (∀ op ∈ ops, opAddedId op ≠ some id) →
      lookupLoc id (runOpsFrom b ops).order_loc = none := by
  intro ops
  induction ops with
  | nil => intro b id h _; simpa [runOpsFrom] using h
  | cons op rest ih =>
    intro b id h hops
    have h1 := lookupLoc_applyOp_none h (hops op (List.mem_cons_self _ _))
    have h2 := ih (applyOp b op) id h1 (fun o ho => hops o (List.mem_cons_of_mem _ ho))
    simpa [runOpsFrom] using h2

/-- Claim C6: `cancel` returns `Canceled` exactly when the id is present in
the location index at the time of the call, and after a `Canceled` cancel,
any sequence of operations that never adds that id back leaves a second
`cancel` of it returning `NotFound`. -/
theorem cancel_canceled_iff_and_idempotent (b : OrderBook) (id : Nat) (ops : List Op)
    (hops : ∀ op ∈ ops, opAddedId op ≠ some id) :
    ((b.cancel id).1 = CancelResult.Canceled ↔ (lookupLoc id b.order_loc).isSome = true) ∧
      ((b.cancel id).1 = CancelResult.Canceled →
        ((runOpsFrom (b.cancel id).2 ops).cancel id).1 = CancelResult.NotFound) := by
  refine ⟨cancel_fst_iff b id, ?_⟩
  intro hc
  have h0 : (b.cancel id).2.order_loc = removeLoc id b.order_loc :=
    cancel_loc_of_canceled b id hc
  have h1 : lookupLoc id (b.cancel id).2.order_loc = none := by
    rw [h0]; exact lookupLoc_removeLoc_self id _
  exact cancel_fst_of_none (lookupLoc_runOpsFrom_none ops _ id h1 hops)

/-- Witness for claim C6 at a concrete book, id and interleaving. -/
theorem cancel_canceled_iff_and_idempotent_witness :
    (((runOps [Op.add Side.Bid 50 5 9]).cancel 9).1 = CancelResult.Canceled ↔
        (lookupLoc 9 (runOps [Op.add Side.Bid 50 5 9]).order_loc).isSome = true) ∧
      (((runOps [Op.add Side.Bid 50 5 9]).cancel 9).1 = CancelResult.Canceled →
        ((runOpsFrom ((runOps [Op.add Side.Bid 50 5 9]).cancel 9).2 []).cancel 9).1 =
          CancelResult.NotFound) :=
  cancel_canceled_iff_and_idempotent (runOps [Op.add Side.Bid 50 5 9]) 9 [] (by decide)

theorem mem_modifyIdx {α : Type} {f : α → α} {x : α} :
    ∀ {n : Nat} {l : List α}, x ∈ modifyIdx f n l → x ∈ l ∨ ∃ a ∈ l, x = f a := by
  intro n l
  induction l generalizing n with
  | nil => intro hx; simp [modifyIdx] at hx
  | cons a t ih =>
    intro hx
    cases n with
    | zero =>
      simp only [modifyIdx] at hx
      rcases List.mem_cons.mp hx with h | h
      · exact Or.inr ⟨a, List.mem_cons_self _ _, h⟩
      · exact Or.inl (List.mem_cons_of_mem _ h)
    | succ m =>
      simp only [modifyIdx] at hx
      rcases List.mem_cons.mp hx with h | h
      · exact Or.inl (h ▸ List.mem_cons_self _ _)
      · rcases ih h with h' | ⟨a', ha', hfa⟩
        · exact Or.inl (List.mem_cons_of_mem _ h')
        · exact Or.inr ⟨a', List.mem_cons_of_mem _ ha', hfa⟩

theorem mem_allOrders_iff {b : OrderBook} {x : Order} :
    x ∈ allOrders b ↔
      x ∈ b.bids.price_levels.flatten ∨ x ∈ b.asks.price_levels.flatten := by
  rw [allOrders, List.flatten_append, List.mem_append]

theorem mem_flatten_insertOrder {hb : HalfBook} {p : Nat} {o x : Order}
    (hx : x ∈ ((hb.insertOrder p o).1.price_levels).flatten) :
    x ∈ hb.price_levels.flatten ∨ x = o := by
  cases h : lookupAssoc p hb.price_map with
  | some idx =>
    have hx' : x ∈ (modifyIdx (fun l => l ++ [o]) idx hb.price_levels).flatten := by
      simpa [HalfBook.insertOrder, h] using hx
    rcases List.mem_flatten.mp hx' with ⟨l, hl, hxl⟩
    rcases mem_modifyIdx hl with hml | ⟨a, ha, rfl⟩
    · exact Or.inl (List.mem_flatten.mpr ⟨l, hml, hxl⟩)
    · rcases List.mem_append.mp hxl with h1 | h1
      · exact Or.inl (List.mem_flatten.mpr ⟨a, ha, h1⟩)
      · exact Or.inr (List.mem_singleton.mp h1)
  | none =>
    have hx' : x ∈ (hb.price_levels ++ [[o]]).flatten := by
      simpa [HalfBook.insertOrder, h] using hx
    rcases List.mem_flatten.mp hx' with ⟨l, hl, hxl⟩
    rcases List.mem_append.mp hl with h1 | h1
    · exact Or.inl (List.mem_flatten.mpr ⟨l, h1, hxl⟩)
    · have h2 : l = [o] := List.mem_singleton.mp h1
      subst h2
      exact Or.inr (List.mem_singleton.mp hxl)

theorem mem_allOrders_add {b : OrderBook} {s : Side} {p q id : Nat} {x : Order}
    (hx : x ∈ allOrders (b.add s p q id)) : x ∈ allOrders b ∨ x = ⟨id, q⟩ := by
  cases s with
  | Bid =>
    rcases mem_allOrders_iff.mp hx with h | h
    · have h2 : x ∈ ((b.bids.insertOrder p (⟨id, q⟩ : Order)).1.price_levels).flatten := h
      rcases mem_flatten_insertOrder h2 with h' | h'
      · exact Or.inl (mem_allOrders_iff.mpr (Or.inl h'))
      · exact Or.inr h'
    · exact Or.inl (mem_allOrders_iff.mpr (Or.inr h))
  | Ask =>
    rcases mem_allOrders_iff.mp hx with h | h
    · exact Or.inl (mem_allOrders_iff.mpr (Or.inl h))
    · have h2 : x ∈ ((b.asks.insertOrder p (⟨id, q⟩ : Order)).1.price_levels).flatten := h
      rcases mem_flatten_insertOrder h2 with h' | h'
      · exact Or.inl (mem_allOrders_iff.mpr (Or.inr h'))
      · exact Or.inr h'

theorem mem_flatten_remove {id n : Nat} {L : List (List Order)} {x : Order}
    (hx : x ∈ (modifyIdx (removeOrderById id) n L).flatten) : x ∈ L.flatten := by
  rcases List.mem_flatten.mp hx with ⟨l, hl, hxl⟩
  rcases mem_modifyIdx hl with h | ⟨a, ha, rfl⟩
  · exact List.mem_flatten.mpr ⟨l, h, hxl⟩
  · have hxl' : x ∈ a.filter (fun o => decide (o.id ≠ id)) := hxl
    exact List.mem_flatten.mpr ⟨a, ha, List.mem_of_mem_filter hxl'⟩

theorem mem_allOrders_cancel {b : OrderBook} {i : Nat} {x : Order}
    (hx : x ∈ allOrders (b.cancel i).2) : x ∈ allOrders b := by
  cases hl : lookupLoc i b.order_loc with
  | none =>
    have hb : (b.cancel i).2 = b := by simp [OrderBook.cancel, hl]
    rwa [hb] at hx
  | some v =>
    obtain ⟨s, idx⟩ := v
    cases s with
    | Bid =>
      have hb2 : (b.cancel i).2.bids.price_levels =
          modifyIdx (removeOrderById i) idx b.bids.price_levels := by
        simp [OrderBook.cancel, hl]
      have ha2 : (b.cancel i).2.asks = b.asks := by simp [OrderBook.cancel, hl]
      rcases mem_allOrders_iff.mp hx with h | h
      · rw [hb2] at h
        exact mem_allOrders_iff.mpr (Or.inl (mem_flatten_remove h))
      · rw [ha2] at h
        exact mem_allOrders_iff.mpr (Or.inr h)
    | Ask =>
      have hb2 : (b.cancel i).2.asks.price_levels =
          modifyIdx (removeOrderById i) idx b.asks.price_levels := by
        simp [OrderBook.cancel, hl]
      have ha2 : (b.cancel i).2.bids = b.bids := by simp [OrderBook.cancel, hl]
      rcases mem_allOrders_iff.mp hx with h | h
      · rw [ha2] at h
        exact mem_allOrders_iff.mpr (Or.inl h)
      · rw [hb2] at h
        exact mem_allOrders_iff.mpr (Or.inr (mem_flatten_remove h))

theorem applyOp_no_zero {b : OrderBook} {op : Op}
    (hb : ∀ o ∈ allOrders b, o.qty ≠ 0) (hop : opQtyOk op = true) :
    ∀ o ∈ allOrders (applyOp b op), o.qty ≠ 0 := by
  intro o ho
  cases op with
  | add s p q i =>
    have ho' : o ∈ allOrders (b.add s p q i) := ho
    rcases mem_allOrders_add ho' with h | h
    · exact hb o h
    · have hq : q ≠ 0 := of_decide_eq_true hop
      subst h
      exact hq
  | cancel i =>
    have ho' : o ∈ allOrders (b.cancel i).2 := ho
    exact hb o (mem_allOrders_cancel ho')

theorem runOpsFrom_no_zero :
    ∀ (ops : List Op) (b : OrderBook), (∀ o ∈ allOrders b, o.qty ≠ 0) →
      (∀ op ∈ ops, opQtyOk op = true) → ∀ o ∈ allOrders (runOpsFrom b ops), o.qty ≠ 0 := by
  intro ops
  induction ops with
  | nil => intro b hb _; simpa [runOpsFrom] using hb
  | cons op rest ih =>
    intro b hb hops
    have h1 := applyOp_no_zero hb (hops op (List.mem_cons_self _ _))
    have h2 := ih (applyOp b op) h1 (fun o ho => hops o (List.mem_cons_of_mem _ ho))
    simpa [runOpsFrom] using h2

/-- Claim C8 counterexample: `add` does not validate quantities, so the
reachable state after `add(Bid, 100, 0)` contains a resting order of
quantity zero, refuting the claim for arbitrary quantity arguments. -/
theorem zero_qty_order_reachable :
    (⟨1, 0⟩ : Order) ∈ allOrders (runOps [Op.add Side.Bid 100 0 1]) ∧
      (⟨1, 0⟩ : Order).qty = 0 :=
  ⟨by decide, rfl⟩

/-- Claim C8 (amended): along any sequence of `add` and `cancel` calls in
which every `add` carries a positive quantity, no price level on either
side ever contains a zero-quantity order. -/
theorem no_zero_qty_orders (ops : List Op) (h : ∀ op ∈ ops, opQtyOk op = true) :
    ∀ o ∈ allOrders (runOps ops), o.qty ≠ 0 :=
  runOpsFrom_no_zero ops OrderBook.new
    (by intro o ho; simp [allOrders, OrderBook.new, HalfBook.new] at ho) h

/-- Witness for the amended claim C8 on a concrete positive-quantity run. -/
theorem no_zero_qty_orders_witness :
    (∀ op ∈ [Op.add Side.Bid 100 10 1], opQtyOk op = true) ∧ (⟨1, 10⟩ : Order).qty ≠ 0 :=
  ⟨by decide, no_zero_qty_orders [Op.add Side.Bid 100 10 1] (by decide) ⟨1, 10⟩ (by decide)⟩

theorem mem_insertAssoc {k v : Nat} {pm : List (Nat × Nat)} {x : Nat × Nat}
    (hx : x ∈ insertAssoc k v pm) : x = (k, v) ∨ x ∈ pm := by
  induction pm with
  | nil => simpa [insertAssoc] using hx
  | cons hd tl ih =>
    obtain ⟨k', v'⟩ := hd
    simp only [insertAssoc] at hx
    split_ifs at hx with h1 h2
    · rcases List.mem_cons.mp hx with h | h
      · exact Or.inl h
      · exact Or.inr h
    · rcases List.mem_cons.mp hx with h | h
      · exact Or.inl h
      · exact Or.inr (List.mem_cons_of_mem _ h)
    · rcases List.mem_cons.mp hx with h | h
      · subst h; exact Or.inr (List.mem_cons_self _ _)
      · rcases ih h with h' | h'
        · exact Or.inl h'
        · exact Or.inr (List.mem_cons_of_mem _ h')

theorem insertAssoc_pairwise {k v : Nat} {pm : List (Nat × Nat)}
    (hs : pm.Pairwise (fun a b => a.1 < b.1)) :
    (insertAssoc k v pm).Pairwise (fun a b => a.1 < b.1) := by
  induction pm with
  | nil => simp [insertAssoc]
  | cons hd tl ih =>
    obtain ⟨k', v'⟩ := hd
    rcases List.pairwise_cons.mp hs with ⟨hhd, htl⟩
    simp only [insertAssoc]
    split_ifs with h1 h2
    · refine List.Pairwise.cons ?_ hs
      intro y hy
      rcases List.mem_cons.mp hy with h | h
      · subst h; exact h1
      · exact lt_trans h1 (hhd y h)
    · subst h2
      exact List.Pairwise.cons (fun y hy => hhd y hy) htl
    · have hk : k' < k := by omega
      refine List.Pairwise.cons ?_ (ih htl)
      intro y hy
      rcases mem_insertAssoc hy with h | h
      · subst h; exact hk
      · exact hhd y h

theorem insertOrder_sorted {hb : HalfBook} {p : Nat} {o : Order}
    (hs : pmSorted hb.price_map) : pmSorted ((hb.insertOrder p o).1.price_map) := by
  cases h : lookupAssoc p hb.price_map with
  | some idx => simpa [HalfBook.insertOrder, h] using hs
  | none =>
    have hpm : ((hb.insertOrder p o).1).price_map =
        insertAssoc p hb.price_levels.length hb.price_map := by
      simp [HalfBook.insertOrder, h]
    rw [pmSorted, hpm]
    exact insertAssoc_pairwise hs

theorem cancel_price_maps (b : OrderBook) (i : Nat) :
    (b.cancel i).2.bids.price_map = b.bids.price_map ∧
      (b.cancel i).2.asks.price_map = b.asks.price_map := by
  cases hl : lookupLoc i b.order_loc with
  | none => simp [OrderBook.cancel, hl]
  | some v =>
    obtain ⟨s, idx⟩ := v
    cases s <;> simp [OrderBook.cancel, hl]

theorem applyOp_sorted {b : OrderBook} {op : Op} (hb : bookSorted b) :
    bookSorted (applyOp b op) := by
  cases op with
  | add s p q i =>
    cases s with
    | Bid => exact ⟨insertOrder_sorted hb.1, hb.2⟩
    | Ask => exact ⟨hb.1, insertOrder_sorted hb.2⟩
  | cancel i =>
    obtain ⟨h1, h2⟩ := cancel_price_maps b i
    refine ⟨?_, ?_⟩
    · show pmSorted (b.cancel i).2.bids.price_map
      rw [h1]; exact hb.1
    · show pmSorted (b.cancel i).2.asks.price_map
      rw [h2]; exact hb.2

theorem runOpsFrom_sorted :
    ∀ (ops : List Op) (b : OrderBook), bookSorted b → bookSorted (runOpsFrom b ops) := by
  intro ops
  induction ops with
  | nil => intro b hb; simpa [runOpsFrom] using hb
  | cons op rest ih =>
    intro b hb
    have h2 := ih (applyOp b op) (applyOp_sorted hb)
    simpa [runOpsFrom] using h2

theorem runOps_sorted (ops : List Op) : bookSorted (runOps ops) :=
  runOpsFrom_sorted ops OrderBook.new ⟨List.Pairwise.nil, List.Pairwise.nil⟩

theorem find?_pairwise {α : Type} {r : α → α → Prop} {p : α → Bool} :
    ∀ {l : List α}, l.Pairwise r → ∀ {x : α}, l.find? p = some x →
      p x = true ∧ x ∈ l ∧ ∀ y ∈ l, p y = true → x = y ∨ r x y := by
  intro l
  induction l with
  | nil => intro _ x hx; simp [List.find?] at hx
  | cons a t ih =>
    intro hs x hx
    rcases List.pairwise_cons.mp hs with ⟨ha, ht⟩
    by_cases hpa : p a = true
    · rw [List.find?_cons_of_pos _ hpa] at hx
      injection hx with hx
      subst hx
      refine ⟨hpa, List.mem_cons_self _ _, ?_⟩
      intro y hy hpy
      rcases List.mem_cons.mp hy with h | h
      · exact Or.inl h.symm
      · exact Or.inr (ha y h)
    · rw [List.find?_cons_of_neg _ hpa] at hx
      obtain ⟨h1, h2, h3⟩ := ih ht hx
      refine ⟨h1, List.mem_cons_of_mem _ h2, ?_⟩
      intro y hy hpy
      rcases List.mem_cons.mp hy with h | h
      · exact absurd (h ▸ hpy) hpa
      · exact h3 y h hpy

theorem scanAsc_min (hb : HalfBook) (hs : pmSorted hb.price_map)
    (hne : hb.nonEmptyPrices ≠ []) :
    ∃ x, hb.scanAsc = some x ∧ x ∈ hb.nonEmptyPrices ∧ ∀ q ∈ hb.nonEmptyPrices, x ≤ q := by
  cases hf : hb.price_map.find? (levelNonEmpty hb) with
  | none =>
    exfalso
    apply hne
    have hall := List.find?_eq_none.mp hf
    have hnil : hb.price_map.filter (levelNonEmpty hb) = [] :=
      List.filter_eq_nil_iff.mpr (fun a ha => hall a ha)
    simp [HalfBook.nonEmptyPrices, hnil]
  | some y =>
    obtain ⟨hpy, hymem, hmin⟩ := find?_pairwise hs hf
    refine ⟨y.1, ?_, ?_, ?_⟩
    · simp [HalfBook.scanAsc, hf]
    · exact List.mem_map.mpr ⟨y, List.mem_filter.mpr ⟨hymem, hpy⟩, rfl⟩
    · intro q hq
      rcases List.mem_map.mp hq with ⟨z, hz, rfl⟩
      rcases List.mem_filter.mp hz with ⟨hzmem, hpz⟩
      rcases hmin z hzmem hpz with h | h
      · cases h; exact le_refl _
      · exact le_of_lt h

theorem scanDesc_max (hb : HalfBook) (hs : pmSorted hb.price_map)
    (hne : hb.nonEmptyPrices ≠ []) :
    ∃ x, hb.scanDesc = some x ∧ x ∈ hb.nonEmptyPrices ∧ ∀ q ∈ hb.nonEmptyPrices, q ≤ x := by
  cases hf : hb.price_map.reverse.find? (levelNonEmpty hb) with
  | none =>
    exfalso
    apply hne
    have hall := List.find?_eq_none.mp hf
    have hnil : hb.price_map.filter (levelNonEmpty hb) = [] :=
      List.filter_eq_nil_iff.mpr (fun a ha => hall a (List.mem_reverse.mpr ha))
    simp [HalfBook.nonEmptyPrices, hnil]
  | some y =>
    have hrev : (hb.price_map.reverse).Pairwise (fun a b : Nat × Nat => b.1 < a.1) :=
      List.pairwise_reverse.mpr hs
    obtain ⟨hpy, hymem, hmax⟩ := find?_pairwise hrev hf
    refine ⟨y.1, ?_, ?_, ?_⟩
    · simp [HalfBook.scanDesc, hf]
    · exact List.mem_map.mpr ⟨y, List.mem_filter.mpr ⟨List.mem_reverse.mp hymem, hpy⟩, rfl⟩
    · intro q hq
      rcases List.mem_map.mp hq with ⟨z, hz, rfl⟩
      rcases List.mem_filter.mp hz with ⟨hzmem, hpz⟩
      rcases hmax z (List.mem_reverse.mpr hzmem) hpz with h | h
      · cases h; exact le_refl _
      · exact le_of_lt h

/-- Claim C1: in every reachable book state, the pair returned by
`update_best_bid_ask` has the best bid equal to the maximum price among
non-empty bid levels and the best ask equal to the minimum price among
non-empty ask levels, whenever the respective side has a non-empty level. -/
theorem update_returns_extremal_prices (ops : List Op) :
    ((runOps ops).bids.nonEmptyPrices ≠ [] →
      (runOps ops).update_best_bid_ask.1.1 ∈ (runOps ops).bids.nonEmptyPrices ∧
        ∀ q ∈ (runOps ops).bids.nonEmptyPrices,
          q ≤ (runOps ops).update_best_bid_ask.1.1) ∧
    ((runOps ops).asks.nonEmptyPrices ≠ [] →
      (runOps ops).update_best_bid_ask.1.2 ∈ (runOps ops).asks.nonEmptyPrices ∧
        ∀ q ∈ (runOps ops).asks.nonEmptyPrices,
          (runOps ops).update_best_bid_ask.1.2 ≤ q) := by
  obtain ⟨hsb, hsa⟩ := runOps_sorted ops
  constructor
  · intro hne
    obtain ⟨x, hscan, hmem, hmax⟩ := scanDesc_max (runOps ops).bids hsb hne
    have hx : (runOps ops).update_best_bid_ask.1.1 = x := by
      show (HalfBook.scanDesc (runOps ops).bids).getD (runOps ops).best_bid = x
      rw [hscan]; rfl
    rw [hx]
    exact ⟨hmem, hmax⟩
  · intro hne
    obtain ⟨x, hscan, hmem, hmin⟩ := scanAsc_min (runOps ops).asks hsa hne
    have hx : (runOps ops).update_best_bid_ask.1.2 = x := by
      show (HalfBook.scanAsc (runOps ops).asks).getD (runOps ops).best_ask = x
      rw [hscan]; rfl
    rw [hx]
    exact ⟨hmem, hmin⟩

/-- Witness for claim C1 on a run leaving both sides non-empty. -/
theorem update_returns_extremal_prices_witness :
    (runOps [Op.add Side.Bid 100 10 1, Op.add Side.Ask 101 5 2]).update_best_bid_ask.1.1 ∈
      (runOps [Op.add Side.Bid 100 10 1, Op.add Side.Ask 101 5 2]).bids.nonEmptyPrices :=
  ((update_returns_extremal_prices
      [Op.add Side.Bid 100 10 1, Op.add Side.Ask 101 5 2]).1 (by decide)).1

theorem getD_nil_of_all_nil {L : List (List Order)} (h : ∀ l ∈ L, l = []) :
    ∀ i : Nat, L.getD i [] = [] := by
  induction L with
  | nil => intro i; cases i <;> rfl
  | cons a t ih =>
    intro i
    cases i with
    | zero => simpa using h a (List.mem_cons_self _ _)
    | succ m => simpa using ih (fun l hl => h l (List.mem_cons_of_mem _ hl)) m

theorem levelNonEmpty_false_of_all_nil {hb : HalfBook}
    (h : ∀ l ∈ hb.price_levels, l = []) (pi : Nat × Nat) :
    levelNonEmpty hb pi = false := by
  unfold levelNonEmpty levelAt
  rw [getD_nil_of_all_nil h pi.2]
  rfl

/-- Claim C4 (amended): on a book with no orders on either side,
`update_best_bid_ask` finds no non-empty level, leaves both caches
unchanged and returns them; on the freshly constructed book those caches
are `(0, 0)`, so the "no bid"/"no ask" value coincides with price zero
and is not distinguishable from a valid price. -/
theorem update_on_all_empty (b : OrderBook)
    (hbids : ∀ l ∈ b.bids.price_levels, l = [])
    (hasks : ∀ l ∈ b.asks.price_levels, l = []) :
    b.update_best_bid_ask.1 = (b.best_bid, b.best_ask) ∧
      OrderBook.new.best_bid = 0 ∧ OrderBook.new.best_ask = 0 := by
  have h1 : HalfBook.scanAsc b.asks = none := by
    unfold HalfBook.scanAsc
    rw [List.find?_eq_none.mpr (fun x _ => by
      rw [levelNonEmpty_false_of_all_nil hasks x]; simp)]
    rfl
  have h2 : HalfBook.scanDesc b.bids = none := by
    unfold HalfBook.scanDesc
    rw [List.find?_eq_none.mpr (fun x _ => by
      rw [levelNonEmpty_false_of_all_nil hbids x]; simp)]
    rfl
  refine ⟨?_, rfl, rfl⟩
  show ((HalfBook.scanDesc b.bids).getD b.best_bid,
        (HalfBook.scanAsc b.asks).getD b.best_ask) = (b.best_bid, b.best_ask)
  rw [h1, h2]
  rfl

/-- Witness for the amended claim C4 at the freshly constructed book. -/
theorem update_on_all_empty_witness :
    OrderBook.new.update_best_bid_ask.1 = (OrderBook.new.best_bid, OrderBook.new.best_ask) ∧
      OrderBook.new.best_bid = 0 ∧ OrderBook.new.best_ask = 0 :=
  update_on_all_empty OrderBook.new (by decide) (by decide)

theorem fillQueue_conserves (price : Nat) :
    ∀ (remaining : Nat) (q : List Order),
      (fillQueue price remaining q).1 +
        (((fillQueue price remaining q).2.1).map Prod.snd).sum = remaining := by
  intro remaining q
  induction q generalizing remaining with
  | nil => simp [fillQueue]
  | cons o rest ih =>
    by_cases h0 : remaining = 0
    · subst h0; simp [fillQueue]
    · simp only [fillQueue]
      rw [if_neg h0]
      by_cases hq : o.qty ≤ remaining
      · rw [if_pos hq]
        rcases hE : fillQueue price (remaining - o.qty) rest with ⟨r', fs, q', ids⟩
        have hrec := ih (remaining - o.qty)
        rw [hE] at hrec
        simp only [List.map_cons, List.sum_cons] at hrec ⊢
        omega
      · rw [if_neg hq]
        simp

theorem fillLevels_conserves (crosses : Nat → Bool) :
    ∀ (remaining : Nat) (ls : List (Nat × List Order)),
      (fillLevels crosses remaining ls).1 +
        (((fillLevels crosses remaining ls).2.1).map Prod.snd).sum = remaining := by
  intro remaining ls
  induction ls generalizing remaining with
  | nil => simp [fillLevels]
  | cons pq rest ih =>
    obtain ⟨p, q⟩ := pq
    by_cases h0 : remaining = 0
    · subst h0; simp [fillLevels]
    · simp only [fillLevels]
      rw [if_neg h0]
      by_cases hc : crosses p
      · rw [if_pos hc]
        rcases hE : fillQueue p remaining q with ⟨r', fs, q', ids⟩
        have hfq := fillQueue_conserves p remaining q
        rw [hE] at hfq
        dsimp only
        by_cases hq : q'.isEmpty
        · rw [if_pos hq]
          rcases hE2 : fillLevels crosses r' rest with ⟨r'', fs', ups, ids'⟩
          have hih := ih r'
          rw [hE2] at hih
          simp only [List.map_append, List.sum_append] at *
          omega
        · rw [if_neg hq]
          simpa using hfq
      · rw [if_neg hc]
        simp

theorem submitFinish_shape (b : OrderBook) (side : Side) (price newId r : Nat)
    (fs : List (Nat × Nat)) (ups : List (Nat × List Order)) (ids : List Nat) :
    ∃ st b3, submitFinish b side price newId r fs ups ids =
      Except.ok ({ remaining := r, status := st, orders := fs }, b3) :=
  ⟨_, _, rfl⟩

/-- Claim C7: for every `submit` call that returns a `FillResult`, the
remaining quantity plus the sum of the fill quantities equals the
requested quantity (matching conservation, proved over the matching
engine modelled from the spec since src leaves it unimplemented). -/
theorem submit_conserves (b : OrderBook) (s : Side) (price qty newId : Nat)
    (fr : FillResult) (b' : OrderBook)
    (h : b.submit s price qty newId = Except.ok (fr, b')) :
    fr.remaining + (fr.orders.map Prod.snd).sum = qty := by
  unfold OrderBook.submit at h
  by_cases h0 : qty = 0
  · rw [if_pos h0] at h; exact absurd h (by simp)
  · rw [if_neg h0] at h
    by_cases hp : price = 0
    · rw [if_pos hp] at h; exact absurd h (by simp)
    · rw [if_neg hp] at h
      cases s with
      | Bid =>
        rcases hE : fillLevels (fun p => decide (p ≤ price)) qty
            (nonEmptyLevelsAsc b.asks) with ⟨r, fs, ups, ids⟩
        rw [hE] at h
        dsimp only at h
        obtain ⟨st, b3, hsf⟩ := submitFinish_shape b Side.Bid price newId r fs ups ids
        rw [hsf] at h
        injection h with h1
        have hfr : ({ remaining := r, status := st, orders := fs } : FillResult) = fr :=
          congrArg Prod.fst h1
        have hcons := fillLevels_conserves (fun p => decide (p ≤ price)) qty
            (nonEmptyLevelsAsc b.asks)
        rw [hE] at hcons
        rw [← hfr]
        simpa using hcons
      | Ask =>
        rcases hE : fillLevels (fun p => decide (price ≤ p)) qty
            (nonEmptyLevelsDesc b.bids) with ⟨r, fs, ups, ids⟩
        rw [hE] at h
        dsimp only at h
        obtain ⟨st, b3, hsf⟩ := submitFinish_shape b Side.Ask price newId r fs ups ids
        rw [hsf] at h
        injection h with h1
        have hfr : ({ remaining := r, status := st, orders := fs } : FillResult) = fr :=
          congrArg Prod.fst h1
        have hcons := fillLevels_conserves (fun p => decide (price ≤ p)) qty
            (nonEmptyLevelsDesc b.bids)
        rw [hE] at hcons
        rw [← hfr]
        simpa using hcons

/-- Witness for claim C7 on the spec's second scenario: submitting a bid
for 8 against a resting ask of 5 leaves remaining 3 with fills summing 5. -/
theorem submit_conserves_witness :
    wFill.remaining + (wFill.orders.map Prod.snd).sum = 8 :=
  submit_conserves (runOps [Op.add Side.Ask 100 5 1]) Side.Bid 100 8 2 wFill wBookAfter rfl

theorem lookupAssoc_eq_none_iff {p : Nat} {pm : List (Nat × Nat)} :
    lookupAssoc p pm = none ↔ ∀ x ∈ pm, x.1 ≠ p := by
  induction pm with
  | nil => simp [lookupAssoc]
  | cons hd tl ih =>
    obtain ⟨k, v⟩ := hd
    simp only [lookupAssoc]
    by_cases hk : p = k
    · rw [if_pos hk]
      constructor
      · intro h; simp at h
      · intro h; exact absurd hk.symm (h (k, v) (List.mem_cons_self _ _))
    · rw [if_neg hk, ih]
      constructor
      · intro h x hx
        rcases List.mem_cons.mp hx with h1 | h1
        · subst h1; exact fun hkp => hk hkp.symm
        · exact h x h1
      · intro h x hx; exact h x (List.mem_cons_of_mem _ hx)

theorem lookupAssoc_mem {p i : Nat} : ∀ {pm : List (Nat × Nat)},
    lookupAssoc p pm = some i → (p, i) ∈ pm := by
  intro pm
  induction pm with
  | nil => intro h; simp [lookupAssoc] at h
  | cons hd tl ih =>
    obtain ⟨k, v⟩ := hd
    intro h
    simp only [lookupAssoc] at h
    by_cases hk : p = k
    · rw [if_pos hk] at h
      injection h with h
      subst hk
      subst h
      exact List.mem_cons_self _ _
    · rw [if_neg hk] at h
      exact List.mem_cons_of_mem _ (ih h)

theorem lookupAssoc_insertAssoc_self {k v : Nat} : ∀ pm : List (Nat × Nat),
    lookupAssoc k (insertAssoc k v pm) = some v := by
  intro pm
  induction pm with
  | nil => simp [insertAssoc, lookupAssoc]
  | cons hd tl ih =>
    obtain ⟨k', v'⟩ := hd
    simp only [insertAssoc]
    split_ifs with h1 h2
    · simp [lookupAssoc]
    · simp [lookupAssoc]
    · simp only [lookupAssoc]
      rw [if_neg (by omega)]
      exact ih

theorem lookupAssoc_insertAssoc_ne {p k v : Nat} (hpk : p ≠ k) :
    ∀ pm : List (Nat × Nat), lookupAssoc p (insertAssoc k v pm) = lookupAssoc p pm := by
  intro pm
  induction pm with
  | nil => simp [insertAssoc, lookupAssoc, hpk]
  | cons hd tl ih =>
    obtain ⟨k', v'⟩ := hd
    simp only [insertAssoc]
    split_ifs with h1 h2
    · simp only [lookupAssoc]
      rw [if_neg hpk]
    · subst h2
      simp only [lookupAssoc]
      rw [if_neg hpk, if_neg hpk]
    · simp only [lookupAssoc]
      by_cases hp' : p = k'
      · rw [if_pos hp', if_pos hp']
      · rw [if_neg hp', if_neg hp', ih]

theorem modifyIdx_length {α : Type} (f : α → α) :
    ∀ (n : Nat) (l : List α), (modifyIdx f n l).length = l.length := by
  intro n l
  induction l generalizing n with
  | nil => cases n <;> rfl
  | cons a t ih =>
    cases n with
    | zero => rfl
    | succ m => simp [modifyIdx, ih]

theorem getD_modifyIdx_self {α : Type} (f : α → α) (d : α) :
    ∀ (n : Nat) (l : List α), n < l.length →
      (modifyIdx f n l).getD n d = f (l.getD n d) := by
  intro n l
  induction l generalizing n with
  | nil => intro h; simp at h
  | cons a t ih =>
    intro h
    cases n with
    | zero => rfl
    | succ m =>
      have hm := ih m (by simpa using h)
      simpa [modifyIdx] using hm

theorem getD_modifyIdx_ne {α : Type} (f : α → α) (d : α) :
    ∀ {m n : Nat} (l : List α), m ≠ n → (modifyIdx f n l).getD m d = l.getD m d := by
  intro m n l
  induction l generalizing m n with
  | nil => intro _; cases n <;> rfl
  | cons a t ih =>
    intro h
    cases n with
    | zero =>
      cases m with
      | zero => exact absurd rfl h
      | succ m' => simp [modifyIdx]
    | succ n' =>
      cases m with
      | zero => simp [modifyIdx]
      | succ m' => simpa [modifyIdx] using ih (fun hh => h (by rw [hh]))

theorem getD_append_left {α : Type} (d : α) :
    ∀ (l t : List α) (i : Nat), i < l.length → (l ++ t).getD i d = l.getD i d := by
  intro l t
  induction l with
  | nil => intro i h; simp at h
  | cons a l' ih =>
    intro i h
    cases i with
    | zero => rfl
    | succ m => simpa using ih m (by simpa using h)

theorem getD_append_length {α : Type} (d a : α) :
    ∀ l : List α, (l ++ [a]).getD l.length d = a := by
  intro l
  induction l with
  | nil => rfl
  | cons b l' ih =>
    simp only [List.cons_append, List.length_cons, List.getD_cons_succ]
    exact ih

theorem get?_eq_some_getD {α : Type} (d : α) :
    ∀ (l : List α) (i : Nat), i < l.length → l.get? i = some (l.getD i d) := by
  intro l
  induction l with
  | nil => intro i h; simp at h
  | cons a t ih =>
    intro i h
    cases i with
    | zero => rfl
    | succ m => simpa using ih m (by simpa using h)

theorem lookupLoc_insertLoc_self (id : Nat) (v : Side × Nat) (l : List (Nat × Side × Nat)) :
    lookupLoc id (insertLoc id v l) = some v := by
  simp [insertLoc, lookupLoc]

theorem lookupLoc_removeLoc_ne {id i : Nat} (hne : id ≠ i) :
    ∀ l : List (Nat × Side × Nat), lookupLoc id (removeLoc i l) = lookupLoc id l := by
  intro l
  induction l with
  | nil => rfl
  | cons e t ih =>
    obtain ⟨k, v⟩ := e
    by_cases hk : k = i
    · have h1 : removeLoc i ((k, v) :: t) = removeLoc i t := by
        simp [removeLoc, hk]
      have hk2 : ¬ k = id := fun h => hne (by rw [← h, hk])
      rw [h1, ih]
      simp [lookupLoc, hk2]
    · have h1 : removeLoc i ((k, v) :: t) = (k, v) :: removeLoc i t := by
        simp [removeLoc, hk]
      rw [h1]
      by_cases hkid : k = id
      · simp [lookupLoc, hkid]
      · simp [lookupLoc, hkid, ih]

theorem filter_comm' {α : Type} (p q : α → Bool) (l : List α) :
    (l.filter q).filter p = (l.filter p).filter q := by
  rw [List.filter_filter, List.filter_filter]
  exact List.filter_congr (fun a _ => Bool.and_comm _ _)

theorem entriesOf_append (ref : List RefEntry) (e : RefEntry) (s : Side) :
    entriesOf (ref ++ [e]) s = entriesOf ref s ++ (if e.side = s then [e] else []) := by
  unfold entriesOf
  rw [List.filter_append]
  by_cases h : e.side = s <;> simp [h]

theorem entriesOf_filter (ref : List RefEntry) (q : RefEntry → Bool) (s : Side) :
    entriesOf (ref.filter q) s = (entriesOf ref s).filter q := by
  unfold entriesOf
  exact filter_comm' _ _ _

theorem hbinv_insertOrder {hb : HalfBook} {es : List RefEntry}
    (hInv : HBInv hb es) (e : RefEntry) :
    HBInv (hb.insertOrder e.price (toOrder e)).1 (es ++ [e]) := by
  cases h : lookupAssoc e.price hb.price_map with
  | some idx =>
    have hbeq : (hb.insertOrder e.price (toOrder e)).1 =
        { hb with price_levels :=
            modifyIdx (fun l => l ++ [toOrder e]) idx hb.price_levels } := by
      simp [HalfBook.insertOrder, h]
    rw [hbeq]
    have hidx : idx < hb.price_levels.length := hInv.bounds _ (lookupAssoc_mem h)
    refine ⟨?_, ?_, ?_, ?_⟩
    · intro pi hpi
      dsimp only at hpi ⊢
      rw [modifyIdx_length]
      exact hInv.bounds pi hpi
    · intro p₁ i₁ p₂ i₂ h1 h2 hne
      exact hInv.inj p₁ i₁ p₂ i₂ h1 h2 hne
    · intro p i hpi
      dsimp only at hpi
      unfold levelAt
      dsimp only
      by_cases hpp : p = e.price
      · subst hpp
        have hii : i = idx := by
          have := hpi
          rw [h] at this
          exact (Option.some.inj this).symm
        subst hii
        rw [getD_modifyIdx_self _ _ _ _ hidx]
        rw [show hb.price_levels.getD i [] = levelAt hb i from rfl]
        rw [hInv.content e.price i hpi, List.filter_append, List.map_append]
        simp
      · have hii : i ≠ idx := hInv.inj p i e.price idx hpi h hpp
        rw [getD_modifyIdx_ne _ _ _ hii]
        rw [show hb.price_levels.getD i [] = levelAt hb i from rfl]
        rw [hInv.content p i hpi, List.filter_append]
        have hone : List.filter (fun e' => decide (e'.price = p)) [e] = [] := by
          simp
          exact fun hh => hpp hh.symm
        simp [hone]
    · intro e' he'
      dsimp only
      rcases List.mem_append.mp he' with h1 | h1
      · exact hInv.dom e' h1
      · have he2 : e' = e := List.mem_singleton.mp h1
        subst he2
        rw [h]
        simp
  | none =>
    have hbeq : (hb.insertOrder e.price (toOrder e)).1 =
        { price_map := insertAssoc e.price hb.price_levels.length hb.price_map,
          price_levels := hb.price_levels ++ [[toOrder e]] } := by
      simp [HalfBook.insertOrder, h]
    rw [hbeq]
    refine ⟨?_, ?_, ?_, ?_⟩
    · intro pi hpi
      dsimp only at hpi ⊢
      rcases mem_insertAssoc hpi with h1 | h1
      · subst h1
        simp
      · have hlt := hInv.bounds pi h1
        simp only [List.length_append, List.length_cons, List.length_nil]
        omega
    · intro p₁ i₁ p₂ i₂ h1 h2 hne
      dsimp only at h1 h2
      by_cases e1 : p₁ = e.price <;> by_cases e2 : p₂ = e.price
      · exact absurd (e1.trans e2.symm) hne
      · subst e1
        rw [lookupAssoc_insertAssoc_self _] at h1
        rw [lookupAssoc_insertAssoc_ne e2 _] at h2
        have hb2 := hInv.bounds _ (lookupAssoc_mem h2)
        injection h1 with h1
        omega
      · subst e2
        rw [lookupAssoc_insertAssoc_self _] at h2
        rw [lookupAssoc_insertAssoc_ne e1 _] at h1
        have hb1 := hInv.bounds _ (lookupAssoc_mem h1)
        injection h2 with h2
        omega
      · rw [lookupAssoc_insertAssoc_ne e1 _] at h1
        rw [lookupAssoc_insertAssoc_ne e2 _] at h2
        exact hInv.inj p₁ i₁ p₂ i₂ h1 h2 hne
    · intro p i hpi
      dsimp only at hpi
      unfold levelAt
      dsimp only
      by_cases hpp : p = e.price
      · subst hpp
        rw [lookupAssoc_insertAssoc_self _] at hpi
        injection hpi with hpi
        subst hpi
        rw [getD_append_length]
        have hnil : List.filter (fun e' => decide (e'.price = e.price)) es = [] := by
          rw [List.filter_eq_nil_iff]
          intro a ha
          simp only [decide_eq_true_eq]
          intro hap
          exact hInv.dom a ha (by rw [hap]; exact h)
        rw [List.filter_append, hnil]
        simp
      · rw [lookupAssoc_insertAssoc_ne hpp _] at hpi
        have hlt := hInv.bounds _ (lookupAssoc_mem hpi)
        rw [getD_append_left _ _ _ _ hlt]
        rw [show hb.price_levels.getD i [] = levelAt hb i from rfl]
        rw [hInv.content p i hpi, List.filter_append]
        have hone : List.filter (fun e' => decide (e'.price = p)) [e] = [] := by
          simp
          exact fun hh => hpp hh.symm
        simp [hone]
    · intro e' he'
      dsimp only
      rcases List.mem_append.mp he' with h1 | h1
      · by_cases hpp : e'.price = e.price
        · rw [hpp, lookupAssoc_insertAssoc_self _]
          simp
        · rw [lookupAssoc_insertAssoc_ne hpp _]
          exact hInv.dom e' h1
      · have he2 : e' = e := List.mem_singleton.mp h1
        subst he2
        rw [lookupAssoc_insertAssoc_self _]
        simp

theorem insertOrder_lookup_self (hb : HalfBook) (p : Nat) (o : Order) :
    lookupAssoc p ((hb.insertOrder p o).1.price_map) = some ((hb.insertOrder p o).2) := by
  cases h : lookupAssoc p hb.price_map with
  | some idx => simp [HalfBook.insertOrder, h]
  | none => simp [HalfBook.insertOrder, h, lookupAssoc_insertAssoc_self]

theorem insertOrder_lookup_mono (hb : HalfBook) (p : Nat) (o : Order) {x i : Nat}
    (h : lookupAssoc x hb.price_map = some i) :
    lookupAssoc x ((hb.insertOrder p o).1.price_map) = some i := by
  cases hl : lookupAssoc p hb.price_map with
  | some idx => simpa [HalfBook.insertOrder, hl] using h
  | none =>
    have hxp : x ≠ p := by
      intro hh
      rw [hh] at h
      rw [hl] at h
      exact Option.noConfusion h
    simp [HalfBook.insertOrder, hl, lookupAssoc_insertAssoc_ne hxp, h]

theorem hbinv_removeOrder {hb : HalfBook} {es : List RefEntry} (hInv : HBInv hb es)
    {i p₀ idx : Nat} (hlook : lookupAssoc p₀ hb.price_map = some idx)
    (honly : ∀ e ∈ es, e.id = i → e.price = p₀) :
    HBInv { hb with price_levels := modifyIdx (removeOrderById i) idx hb.price_levels }
      (es.filter (fun e => decide (e.id ≠ i))) := by
  have hidx : idx < hb.price_levels.length := hInv.bounds _ (lookupAssoc_mem hlook)
  refine ⟨?_, ?_, ?_, ?_⟩
  · intro pi hpi
    dsimp only at hpi ⊢
    rw [modifyIdx_length]
    exact hInv.bounds pi hpi
  · exact fun p₁ i₁ p₂ i₂ h1 h2 hne => hInv.inj p₁ i₁ p₂ i₂ h1 h2 hne
  · intro p j hpj
    dsimp only at hpj
    unfold levelAt
    dsimp only
    by_cases hpp : p = p₀
    · subst hpp
      have hjj : j = idx := by
        have h2 := hpj
        rw [hlook] at h2
        exact (Option.some.inj h2).symm
      subst hjj
      rw [getD_modifyIdx_self _ _ _ _ hidx]
      rw [show hb.price_levels.getD j [] = levelAt hb j from rfl]
      rw [hInv.content p j hpj]
      unfold removeOrderById
      rw [List.filter_map]
      congr 1
      have hcomp : ((fun o : Order => decide (o.id ≠ i)) ∘ toOrder) =
          (fun e : RefEntry => decide (e.id ≠ i)) := rfl
      rw [hcomp, filter_comm']
    · have hjj : j ≠ idx := hInv.inj p j p₀ idx hpj hlook hpp
      rw [getD_modifyIdx_ne _ _ _ hjj]
      rw [show hb.price_levels.getD j [] = levelAt hb j from rfl, hInv.content p j hpj]
      rw [filter_comm']
      have hself : (es.filter (fun e => decide (e.price = p))).filter
          (fun e => decide (e.id ≠ i)) = es.filter (fun e => decide (e.price = p)) := by
        rw [List.filter_eq_self]
        intro a ha
        simp only [decide_eq_true_eq]
        intro hai
        have hap := honly a (List.mem_of_mem_filter ha) hai
        have hp2 : a.price = p := by simpa using List.of_mem_filter ha
        exact hpp (hp2 ▸ hap)
      rw [hself]
  · intro e he
    dsimp only
    exact hInv.dom e (List.mem_of_mem_filter he)

theorem bookinv_add {b : OrderBook} {ref : List RefEntry} (hInv : BookInv b ref)
    (s : Side) (p q id : Nat) (hfresh : ∀ e ∈ ref, e.id ≠ id) :
    BookInv (b.add s p q id) (ref ++ [⟨s, p, id, q⟩]) := by
  cases s with
  | Bid =>
    refine ⟨?_, ?_, ?_, ?_, ?_⟩
    · show HBInv (b.bids.insertOrder p ⟨id, q⟩).1 (entriesOf (ref ++ [⟨Side.Bid, p, id, q⟩]) Side.Bid)
      rw [entriesOf_append]
      simp only [if_pos rfl]
      exact hbinv_insertOrder hInv.bidsInv ⟨Side.Bid, p, id, q⟩
    · show HBInv b.asks (entriesOf (ref ++ [⟨Side.Bid, p, id, q⟩]) Side.Ask)
      rw [entriesOf_append]
      simp only [if_neg (by simp : ¬ (⟨Side.Bid, p, id, q⟩ : RefEntry).side = Side.Ask)]
      simpa using hInv.asksInv
    · intro id'
      show lookupLoc id' (insertLoc id (Side.Bid, (b.bids.insertOrder p ⟨id, q⟩).2) b.order_loc)
          = none ↔ _
      by_cases hid : id = id'
      · subst hid
        rw [lookupLoc_insertLoc_self]
        constructor
        · intro h; exact absurd h (by simp)
        · intro hall
          exact absurd rfl (hall ⟨Side.Bid, p, id, q⟩ (by simp))
      · have hstep : lookupLoc id'
            (insertLoc id (Side.Bid, (b.bids.insertOrder p ⟨id, q⟩).2) b.order_loc) =
            lookupLoc id' b.order_loc := by
          simp only [insertLoc, lookupLoc]
          rw [if_neg hid]
          exact lookupLoc_removeLoc_ne (fun h => hid h.symm) _
        rw [hstep, hInv.locNone id']
        constructor
        · intro hall e he
          rcases List.mem_append.mp he with h1 | h1
          · exact hall e h1
          · have he2 : e = ⟨Side.Bid, p, id, q⟩ := List.mem_singleton.mp h1
            subst he2
            exact hid
        · intro hall e he
          exact hall e (List.mem_append.mpr (Or.inl he))
    · intro id' s' i' hlk
      by_cases hid : id = id'
      · subst hid
        have hlk' : lookupLoc id (insertLoc id (Side.Bid, (b.bids.insertOrder p ⟨id, q⟩).2)
            b.order_loc) = some (s', i') := hlk
        rw [lookupLoc_insertLoc_self] at hlk'
        injection hlk' with hlk'
        have hs' : s' = Side.Bid := (congrArg Prod.fst hlk').symm
        have hi' : i' = (b.bids.insertOrder p ⟨id, q⟩).2 := (congrArg Prod.snd hlk').symm
        subst hs'
        subst hi'
        refine ⟨⟨Side.Bid, p, id, q⟩, by simp, rfl, rfl, ?_⟩
        exact insertOrder_lookup_self b.bids p ⟨id, q⟩
      · have hlk' : lookupLoc id' (insertLoc id (Side.Bid, (b.bids.insertOrder p ⟨id, q⟩).2)
            b.order_loc) = some (s', i') := hlk
        have hstep : lookupLoc id'
            (insertLoc id (Side.Bid, (b.bids.insertOrder p ⟨id, q⟩).2) b.order_loc) =
            lookupLoc id' b.order_loc := by
          simp only [insertLoc, lookupLoc]
          rw [if_neg hid]
          exact lookupLoc_removeLoc_ne (fun h => hid h.symm) _
        rw [hstep] at hlk'
        obtain ⟨e', he', heid, heside, helook⟩ := hInv.locSome id' s' i' hlk'
        refine ⟨e', List.mem_append.mpr (Or.inl he'), heid, heside, ?_⟩
        cases s' with
        | Bid =>
          show lookupAssoc e'.price ((b.bids.insertOrder p ⟨id, q⟩).1.price_map) = some i'
          exact insertOrder_lookup_mono b.bids p ⟨id, q⟩ helook
        | Ask => exact helook
    · show ((ref ++ [(⟨Side.Bid, p, id, q⟩ : RefEntry)]).map RefEntry.id).Nodup
      rw [List.map_append]
      rw [List.nodup_append]
      refine ⟨hInv.idsNodup, by simp, ?_⟩
      intro a ha hb2
      rcases List.mem_map.mp ha with ⟨e', he', rfl⟩
      have hb3 : e'.id = id := by simpa using hb2
      exact hfresh e' he' hb3
  | Ask =>
    refine ⟨?_, ?_, ?_, ?_, ?_⟩
    · show HBInv b.bids (entriesOf (ref ++ [⟨Side.Ask, p, id, q⟩]) Side.Bid)
      rw [entriesOf_append]
      simp only [if_neg (by simp : ¬ (⟨Side.Ask, p, id, q⟩ : RefEntry).side = Side.Bid)]
      simpa using hInv.bidsInv
    · show HBInv (b.asks.insertOrder p ⟨id, q⟩).1 (entriesOf (ref ++ [⟨Side.Ask, p, id, q⟩]) Side.Ask)
      rw [entriesOf_append]
      simp only [if_pos rfl]
      exact hbinv_insertOrder hInv.asksInv ⟨Side.Ask, p, id, q⟩
    · intro id'
      show lookupLoc id' (insertLoc id (Side.Ask, (b.asks.insertOrder p ⟨id, q⟩).2) b.order_loc)
          = none ↔ _
      by_cases hid : id = id'
      · subst hid
        rw [lookupLoc_insertLoc_self]
        constructor
        · intro h; exact absurd h (by simp)
        · intro hall
          exact absurd rfl (hall ⟨Side.Ask, p, id, q⟩ (by simp))
      · have hstep : lookupLoc id'
            (insertLoc id (Side.Ask, (b.asks.insertOrder p ⟨id, q⟩).2) b.order_loc) =
            lookupLoc id' b.order_loc := by
          simp only [insertLoc, lookupLoc]
          rw [if_neg hid]
          exact lookupLoc_removeLoc_ne (fun h => hid h.symm) _
        rw [hstep, hInv.locNone id']
        constructor
        · intro hall e he
          rcases List.mem_append.mp he with h1 | h1
          · exact hall e h1
          · have he2 : e = ⟨Side.Ask, p, id, q⟩ := List.mem_singleton.mp h1
            subst he2
            exact hid
        · intro hall e he
          exact hall e (List.mem_append.mpr (Or.inl he))
    · intro id' s' i' hlk
      by_cases hid : id = id'
      · subst hid
        have hlk' : lookupLoc id (insertLoc id (Side.Ask, (b.asks.insertOrder p ⟨id, q⟩).2)
            b.order_loc) = some (s', i') := hlk
        rw [lookupLoc_insertLoc_self] at hlk'
        injection hlk' with hlk'
        have hs' : s' = Side.Ask := (congrArg Prod.fst hlk').symm
        have hi' : i' = (b.asks.insertOrder p ⟨id, q⟩).2 := (congrArg Prod.snd hlk').symm
        subst hs'
        subst hi'
        refine ⟨⟨Side.Ask, p, id, q⟩, by simp, rfl, rfl, ?_⟩
        exact insertOrder_lookup_self b.asks p ⟨id, q⟩
      · have hlk' : lookupLoc id' (insertLoc id (Side.Ask, (b.asks.insertOrder p ⟨id, q⟩).2)
            b.order_loc) = some (s', i') := hlk
        have hstep : lookupLoc id'
            (insertLoc id (Side.Ask, (b.asks.insertOrder p ⟨id, q⟩).2) b.order_loc) =
            lookupLoc id' b.order_loc := by
          simp only [insertLoc, lookupLoc]
          rw [if_neg hid]
          exact lookupLoc_removeLoc_ne (fun h => hid h.symm) _
        rw [hstep] at hlk'
        obtain ⟨e', he', heid, heside, helook⟩ := hInv.locSome id' s' i' hlk'
        refine ⟨e', List.mem_append.mpr (Or.inl he'), heid, heside, ?_⟩
        cases s' with
        | Bid => exact helook
        | Ask =>
          show lookupAssoc e'.price ((b.asks.insertOrder p ⟨id, q⟩).1.price_map) = some i'
          exact insertOrder_lookup_mono b.asks p ⟨id, q⟩ helook
    · show ((ref ++ [(⟨Side.Ask, p, id, q⟩ : RefEntry)]).map RefEntry.id).Nodup
      rw [List.map_append]
      rw [List.nodup_append]
      refine ⟨hInv.idsNodup, by simp, ?_⟩
      intro a ha hb2
      rcases List.mem_map.mp ha with ⟨e', he', rfl⟩
      have hb3 : e'.id = id := by simpa using hb2
      exact hfresh e' he' hb3

theorem bookinv_cancel {b : OrderBook} {ref : List RefEntry} (hInv : BookInv b ref) (i : Nat) :
    BookInv (b.cancel i).2 (ref.filter (fun e => decide (e.id ≠ i))) := by
  cases hl : lookupLoc i b.order_loc with
  | none =>
    have hb : (b.cancel i).2 = b := by simp [OrderBook.cancel, hl]
    have hall : ∀ e ∈ ref, e.id ≠ i := (hInv.locNone i).mp hl
    have href : ref.filter (fun e => decide (e.id ≠ i)) = ref := by
      rw [List.filter_eq_self]
      intro a ha
      simpa using hall a ha
    rw [hb, href]
    exact hInv
  | some v =>
    obtain ⟨s, idx⟩ := v
    obtain ⟨e₀, he₀, he₀id, he₀side, he₀look⟩ := hInv.locSome i s idx hl
    have huniq : ∀ e' ∈ ref, e'.id = i → e' = e₀ := by
      intro e' he' hid
      exact List.inj_on_of_nodup_map hInv.idsNodup he' he₀ (by rw [hid, he₀id])
    cases s with
    | Bid =>
      have hbeq : (b.cancel i).2 =
          { b with order_loc := removeLoc i b.order_loc,
                   bids := { b.bids with
                             price_levels := modifyIdx (removeOrderById i) idx b.bids.price_levels } } := by
        simp [OrderBook.cancel, hl]
      rw [hbeq]
      refine ⟨?_, ?_, ?_, ?_, ?_⟩
      · show HBInv { b.bids with
            price_levels := modifyIdx (removeOrderById i) idx b.bids.price_levels }
            (entriesOf (ref.filter (fun e => decide (e.id ≠ i))) Side.Bid)
        rw [entriesOf_filter]
        exact hbinv_removeOrder hInv.bidsInv he₀look
          (fun e he hid => by rw [huniq e (List.mem_of_mem_filter he) hid])
      · show HBInv b.asks (entriesOf (ref.filter (fun e => decide (e.id ≠ i))) Side.Ask)
        rw [entriesOf_filter]
        have hsame : (entriesOf ref Side.Ask).filter (fun e => decide (e.id ≠ i)) =
            entriesOf ref Side.Ask := by
          rw [List.filter_eq_self]
          intro a ha
          simp only [decide_eq_true_eq]
          intro hai
          have ha2 := huniq a (List.mem_of_mem_filter ha) hai
          have haside : a.side = Side.Ask := by simpa using List.of_mem_filter ha
          rw [ha2, he₀side] at haside
          exact Side.noConfusion haside
        rw [hsame]
        exact hInv.asksInv
      · intro id'
        show lookupLoc id' (removeLoc i b.order_loc) = none ↔ _
        by_cases hid : id' = i
        · subst hid
          rw [lookupLoc_removeLoc_self]
          constructor
          · intro _ e he
            have hf := List.of_mem_filter he
            simpa using hf
          · intro _; rfl
        · rw [lookupLoc_removeLoc_ne hid, hInv.locNone id']
          constructor
          · intro hall e he
            exact hall e (List.mem_of_mem_filter he)
          · intro hall e he
            by_cases hei : e.id = i
            · intro hcontra
              exact hid (hcontra ▸ hei)
            · exact hall e (List.mem_filter.mpr ⟨he, by simpa using hei⟩)
      · intro id' s' i' hlk
        have hlk' : lookupLoc id' (removeLoc i b.order_loc) = some (s', i') := hlk
        by_cases hid : id' = i
        · subst hid
          rw [lookupLoc_removeLoc_self] at hlk'
          exact Option.noConfusion hlk'
        · rw [lookupLoc_removeLoc_ne hid] at hlk'
          obtain ⟨e', he', heid, heside, helook⟩ := hInv.locSome id' s' i' hlk'
          have hmem : e' ∈ ref.filter (fun e => decide (e.id ≠ i)) :=
            List.mem_filter.mpr ⟨he', by simp [heid, hid]⟩
          refine ⟨e', hmem, heid, heside, ?_⟩
          cases s' with
          | Bid => exact helook
          | Ask => exact helook
      · show ((ref.filter (fun e => decide (e.id ≠ i))).map RefEntry.id).Nodup
        exact List.Sublist.nodup (List.Sublist.map _ (List.filter_sublist _)) hInv.idsNodup
    | Ask =>
      have hbeq : (b.cancel i).2 =
          { b with order_loc := removeLoc i b.order_loc,
                   asks := { b.asks with
                             price_levels := modifyIdx (removeOrderById i) idx b.asks.price_levels } } := by
        simp [OrderBook.cancel, hl]
      rw [hbeq]
      refine ⟨?_, ?_, ?_, ?_, ?_⟩
      · show HBInv b.bids (entriesOf (ref.filter (fun e => decide (e.id ≠ i))) Side.Bid)
        rw [entriesOf_filter]
        have hsame : (entriesOf ref Side.Bid).filter (fun e => decide (e.id ≠ i)) =
            entriesOf ref Side.Bid := by
          rw [List.filter_eq_self]
          intro a ha
          simp only [decide_eq_true_eq]
          intro hai
          have ha2 := huniq a (List.mem_of_mem_filter ha) hai
          have haside : a.side = Side.Bid := by simpa using List.of_mem_filter ha
          rw [ha2, he₀side] at haside
          exact Side.noConfusion haside
        rw [hsame]
        exact hInv.bidsInv
      · show HBInv { b.asks with
            price_levels := modifyIdx (removeOrderById i) idx b.asks.price_levels }
            (entriesOf (ref.filter (fun e => decide (e.id ≠ i))) Side.Ask)
        rw [entriesOf_filter]
        exact hbinv_removeOrder hInv.asksInv he₀look
          (fun e he hid => by rw [huniq e (List.mem_of_mem_filter he) hid])
      · intro id'
        show lookupLoc id' (removeLoc i b.order_loc) = none ↔ _
        by_cases hid : id' = i
        · subst hid
          rw [lookupLoc_removeLoc_self]
          constructor
          · intro _ e he
            have hf := List.of_mem_filter he
            simpa using hf
          · intro _; rfl
        · rw [lookupLoc_removeLoc_ne hid, hInv.locNone id']
          constructor
          · intro hall e he
            exact hall e (List.mem_of_mem_filter he)
          · intro hall e he
            by_cases hei : e.id = i
            · intro hcontra
              exact hid (hcontra ▸ hei)
            · exact hall e (List.mem_filter.mpr ⟨he, by simpa using hei⟩)
      · intro id' s' i' hlk
        have hlk' : lookupLoc id' (removeLoc i b.order_loc) = some (s', i') := hlk
        by_cases hid : id' = i
        · subst hid
          rw [lookupLoc_removeLoc_self] at hlk'
          exact Option.noConfusion hlk'
        · rw [lookupLoc_removeLoc_ne hid] at hlk'
          obtain ⟨e', he', heid, heside, helook⟩ := hInv.locSome id' s' i' hlk'
          have hmem : e' ∈ ref.filter (fun e => decide (e.id ≠ i)) :=
            List.mem_filter.mpr ⟨he', by simp [heid, hid]⟩
          refine ⟨e', hmem, heid, heside, ?_⟩
          cases s' with
          | Bid => exact helook
          | Ask => exact helook
      · show ((ref.filter (fun e => decide (e.id ≠ i))).map RefEntry.id).Nodup
        exact List.Sublist.nodup (List.Sublist.map _ (List.filter_sublist _)) hInv.idsNodup

theorem bookinv_new : BookInv OrderBook.new [] := by
  refine ⟨⟨?_, ?_, ?_, ?_⟩, ⟨?_, ?_, ?_, ?_⟩, ?_, ?_, ?_⟩
  · intro pi hpi
    exact absurd hpi (by simp [OrderBook.new, HalfBook.new])
  · intro p₁ i₁ p₂ i₂ h1 h2 hne
    exact absurd h1 (by simp [OrderBook.new, HalfBook.new, lookupAssoc])
  · intro p i h1
    exact absurd h1 (by simp [OrderBook.new, HalfBook.new, lookupAssoc])
  · intro e he
    exact absurd he (by simp [entriesOf])
  · intro pi hpi
    exact absurd hpi (by simp [OrderBook.new, HalfBook.new])
  · intro p₁ i₁ p₂ i₂ h1 h2 hne
    exact absurd h1 (by simp [OrderBook.new, HalfBook.new, lookupAssoc])
  · intro p i h1
    exact absurd h1 (by simp [OrderBook.new, HalfBook.new, lookupAssoc])
  · intro e he
    exact absurd he (by simp [entriesOf])
  · intro id
    simp [OrderBook.new, lookupLoc]
  · intro id s i h
    exact absurd h (by simp [OrderBook.new, lookupLoc])
  · simp

theorem bookinv_runOpsFrom :
    ∀ (ops : List Op) (b : OrderBook) (ref : List RefEntry) (used : List Nat),
      BookInv b ref → (∀ e ∈ ref, e.id ∈ used) →
      (∀ j ∈ addIds ops, j ∉ used) → (addIds ops).Nodup →
      BookInv (runOpsFrom b ops) (refRunFrom ref ops) := by
  intro ops
  induction ops with
  | nil =>
    intro b ref used hInv _ _ _
    simpa [runOpsFrom, refRunFrom] using hInv
  | cons op rest ih =>
    intro b ref used hInv hsub hdisj hnd
    cases op with
    | add s p q id =>
      have haddIds : addIds (Op.add s p q id :: rest) = id :: addIds rest := by
        simp [addIds, opAddedId]
      rw [haddIds] at hdisj hnd
      have hid_used : id ∉ used := hdisj id (List.mem_cons_self _ _)
      have hfresh : ∀ e ∈ ref, e.id ≠ id := fun e he hh => hid_used (hh ▸ hsub e he)
      have hInv' := bookinv_add hInv s p q id hfresh
      have hsub' : ∀ e ∈ ref ++ [(⟨s, p, id, q⟩ : RefEntry)], e.id ∈ used ++ [id] := by
        intro e he
        rcases List.mem_append.mp he with h1 | h1
        · exact List.mem_append.mpr (Or.inl (hsub e h1))
        · have he2 : e = ⟨s, p, id, q⟩ := List.mem_singleton.mp h1
          subst he2
          simp
      have hdisj' : ∀ j ∈ addIds rest, j ∉ used ++ [id] := by
        intro j hj
        rw [List.mem_append]
        rintro (h1 | h1)
        · exact hdisj j (List.mem_cons_of_mem _ hj) h1
        · have hj2 : j = id := List.mem_singleton.mp h1
          subst hj2
          exact (List.nodup_cons.mp hnd).1 hj
      have hnd' := (List.nodup_cons.mp hnd).2
      have hmain := ih (b.add s p q id) (ref ++ [⟨s, p, id, q⟩]) (used ++ [id])
        hInv' hsub' hdisj' hnd'
      simpa [runOpsFrom, refRunFrom, applyOp, refApply] using hmain
    | cancel j =>
      have hInv' := bookinv_cancel hInv j
      have hsub' : ∀ e ∈ ref.filter (fun e => decide (e.id ≠ j)), e.id ∈ used :=
        fun e he => hsub e (List.mem_of_mem_filter he)
      have haddIds : addIds (Op.cancel j :: rest) = addIds rest := by
        simp [addIds, opAddedId]
      rw [haddIds] at hdisj hnd
      have hmain := ih (b.cancel j).2 (ref.filter (fun e => decide (e.id ≠ j))) used
        hInv' hsub' hdisj hnd
      simpa [runOpsFrom, refRunFrom, applyOp, refApply] using hmain

theorem bookinv_runOps (ops : List Op) (h : (addIds ops).Nodup) :
    BookInv (runOps ops) (refRun ops) :=
  bookinv_runOpsFrom ops OrderBook.new [] [] bookinv_new (by simp) (by simp) h

theorem insertOrder_lookup_none_iff (hb : HalfBook) (p' : Nat) (o : Order) (p : Nat) :
    lookupAssoc p ((hb.insertOrder p' o).1.price_map) = none ↔
      (lookupAssoc p hb.price_map = none ∧ p ≠ p') := by
  cases h : lookupAssoc p' hb.price_map with
  | some idx =>
    have hpm : (hb.insertOrder p' o).1.price_map = hb.price_map := by
      simp [HalfBook.insertOrder, h]
    rw [hpm]
    constructor
    · intro hn
      refine ⟨hn, ?_⟩
      intro hpp
      rw [hpp, h] at hn
      exact Option.noConfusion hn
    · exact fun hh => hh.1
  | none =>
    have hpm : (hb.insertOrder p' o).1.price_map =
        insertAssoc p' hb.price_levels.length hb.price_map := by
      simp [HalfBook.insertOrder, h]
    rw [hpm]
    by_cases hpp : p = p'
    · subst hpp
      rw [lookupAssoc_insertAssoc_self]
      simp [h]
    · rw [lookupAssoc_insertAssoc_ne hpp]
      simp [hpp]

theorem lookup_pm_applyOp_none (b : OrderBook) (op : Op) (s : Side) (p : Nat) :
    lookupAssoc p (sideStore (applyOp b op) s).price_map = none ↔
      (lookupAssoc p (sideStore b s).price_map = none ∧ opAddsPrice op s p = false) := by
  cases op with
  | add s' p' q' i' =>
    cases s' <;> cases s
    · show lookupAssoc p ((b.bids.insertOrder p' ⟨i', q'⟩).1.price_map) = none ↔ _
      rw [insertOrder_lookup_none_iff]
      simp [opAddsPrice, ne_comm, sideStore]
    · show lookupAssoc p b.asks.price_map = none ↔ _
      simp [opAddsPrice, sideStore]
    · show lookupAssoc p b.bids.price_map = none ↔ _
      simp [opAddsPrice, sideStore]
    · show lookupAssoc p ((b.asks.insertOrder p' ⟨i', q'⟩).1.price_map) = none ↔ _
      rw [insertOrder_lookup_none_iff]
      simp [opAddsPrice, ne_comm, sideStore]
  | cancel j =>
    obtain ⟨h1, h2⟩ := cancel_price_maps b j
    cases s
    · show lookupAssoc p (b.cancel j).2.bids.price_map = none ↔ _
      rw [h1]
      simp [opAddsPrice, sideStore]
    · show lookupAssoc p (b.cancel j).2.asks.price_map = none ↔ _
      rw [h2]
      simp [opAddsPrice, sideStore]

theorem lookup_pm_runOpsFrom_none :
    ∀ (ops : List Op) (b : OrderBook) (s : Side) (p : Nat),
      lookupAssoc p (sideStore (runOpsFrom b ops) s).price_map = none ↔
        (lookupAssoc p (sideStore b s).price_map = none ∧ p ∉ addedPrices ops s) := by
  intro ops
  induction ops with
  | nil => intro b s p; simp [runOpsFrom, addedPrices]
  | cons op rest ih =>
    intro b s p
    have hstep : runOpsFrom b (op :: rest) = runOpsFrom (applyOp b op) rest := by
      simp [runOpsFrom]
    rw [hstep, ih, lookup_pm_applyOp_none]
    have hmem : p ∈ addedPrices (op :: rest) s ↔
        (opAddsPrice op s p = true ∨ p ∈ addedPrices rest s) := by
      cases op with
      | add s' p' q' i' =>
        by_cases hss : s' = s
        · subst hss
          simp [addedPrices, opAddsPrice, List.filterMap_cons, eq_comm]
        · simp [addedPrices, opAddsPrice, List.filterMap_cons, hss]
      | cancel j => simp [addedPrices, opAddsPrice, List.filterMap_cons]
    rw [hmem]
    constructor
    · rintro ⟨⟨hn, hop⟩, hrest⟩
      refine ⟨hn, ?_⟩
      rintro (h1 | h1)
      · rw [hop] at h1
        exact Bool.noConfusion h1
      · exact hrest h1
    · rintro ⟨hn, hnotin⟩
      refine ⟨⟨hn, ?_⟩, fun h1 => hnotin (Or.inr h1)⟩
      cases hcase : opAddsPrice op s p
      · rfl
      · exact absurd (Or.inl hcase) hnotin

theorem u64SumQty_foldl :
    ∀ (l : List Order) (acc : Nat), acc < u64Mod →
      l.foldl (fun a o => (a + o.qty) % u64Mod) acc =
        (acc + (l.map Order.qty).sum) % u64Mod := by
  intro l
  induction l with
  | nil =>
    intro acc h
    simp [Nat.mod_eq_of_lt h]
  | cons o t ih =>
    intro acc h
    rw [List.foldl_cons]
    rw [ih _ (Nat.mod_lt _ (by decide))]
    rw [Nat.mod_add_mod]
    simp only [List.map_cons, List.sum_cons]
    congr 1
    omega

theorem u64SumQty_eq_sum_mod (l : List Order) :
    u64SumQty l = ((l.map Order.qty).sum) % u64Mod := by
  unfold u64SumQty
  rw [u64SumQty_foldl l 0 (by decide)]
  simp

/-- Claim C2 counterexample: at two adds of quantity `2^63` on one bid
price — valid `u64` inputs — the resting quantities sum to `2^64`, but the
query returns `Ok 0` because the `u64` sum wraps, so the query does not
return the sum of the resting orders' quantities. -/
theorem get_total_qty_wraps_at_u64_overflow :
    (runOps wrapOps).get_total_qty Side.Bid 100 = Except.ok 0 ∧
      refQty wrapOps Side.Bid 100 = 18446744073709551616 ∧
      (0 : Nat) ≠ refQty wrapOps Side.Bid 100 :=
  ⟨rfl, rfl, by decide⟩

/-- Claim C2 (amended): for every sequence of operations with distinct
fresh add ids, the total-quantity query at a side and price fails with
`PriceNotFound` exactly when no `add` ever targeted that price on that
side; otherwise it succeeds (even on a now-empty level, which yields
zero) and returns the sum of the quantities of the currently resting
orders at that exact price on that side reduced modulo `2^64` (the
wrapping `u64` sum the code computes). -/
theorem get_total_qty_spec (ops : List Op) (s : Side) (p : Nat)
    (hids : (addIds ops).Nodup) :
    (p ∉ addedPrices ops s →
      (runOps ops).get_total_qty s p = Except.error QtyError.PriceNotFound) ∧
    (p ∈ addedPrices ops s →
      (runOps ops).get_total_qty s p = Except.ok (refQty ops s p % u64Mod)) := by
  have hgen : (runOps ops).get_total_qty s p = (sideStore (runOps ops) s).get_total_qty p := by
    cases s <;> rfl
  have hiff := lookup_pm_runOpsFrom_none ops OrderBook.new s p
  have hnew : lookupAssoc p (sideStore OrderBook.new s).price_map = none := by
    cases s <;> rfl
  constructor
  · intro hnot
    have hnone : lookupAssoc p (sideStore (runOps ops) s).price_map = none :=
      hiff.mpr ⟨hnew, hnot⟩
    rw [hgen]
    unfold HalfBook.get_total_qty
    rw [hnone]
  · intro hin
    have hInv := bookinv_runOps ops hids
    cases hlk : lookupAssoc p (sideStore (runOps ops) s).price_map with
    | none =>
      exact absurd hin (hiff.mp hlk).2
    | some i =>
      have hbInv : HBInv (sideStore (runOps ops) s) (entriesOf (refRun ops) s) := by
        cases s
        · exact hInv.bidsInv
        · exact hInv.asksInv
      have hcont := hbInv.content p i hlk
      have hlt := hbInv.bounds _ (lookupAssoc_mem hlk)
      rw [hgen]
      unfold HalfBook.get_total_qty
      simp only [hlk]
      rw [get?_eq_some_getD [] ((sideStore (runOps ops) s).price_levels) i hlt]
      rw [show (sideStore (runOps ops) s).price_levels.getD i [] =
          levelAt (sideStore (runOps ops) s) i from rfl]
      rw [hcont]
      unfold refQty
      dsimp only
      congr 1
      rw [u64SumQty_eq_sum_mod, List.map_map]
      rfl

/-- Witness for the amended claim C2 on the spec scenario: the query at
ask price 101 succeeds with the wrapped reference quantity, which is 20. -/
theorem get_total_qty_spec_witness :
    (runOps scenarioOps).get_total_qty Side.Ask 101 =
        Except.ok (refQty scenarioOps Side.Ask 101 % u64Mod) ∧
      refQty scenarioOps Side.Ask 101 = 20 :=
  ⟨(get_total_qty_spec scenarioOps Side.Ask 101 (by decide)).2 (by decide), by decide⟩

end Execution
